import Mathlib

/-!
# Topological_sort: cycle detection and enumeration of all topological orders

A shallow embedding of `src/project.c`.

* The globals `n` and `adjacencyMatrix` form a `Graph`; the matrix is a total
  function of two indices of which the code only reads the entries below `n`.
* The globals `color` and `hasCycle` form a `CycleState`; `visited`,
  `currentOrder`, `solutionCount` and the lines written by `printSolution`
  form an `EnumState`.
* `int` arrays are functions `Nat → Int`; a `for (i = 0; i < n; i++)` loop is a
  recursion over `List.range n`, an early `return` or `break` ends it.
* The two recursive C functions take a fuel argument and return `none` when it
  runs out; the callers pass the fuel the source's recursion depth needs, and
  the theorems show that it is enough.
* `solutionCount` is a 32-bit `int`: `++solutionCount` wraps from `2^31 - 1`
  to `-2^31` (`wrapInt`), as the compiled code does. The other integers of the
  program stay within range and are taken as they are.
* The input file of `readGraph` is the sequence of integers that successive
  `fscanf(file, "%d", ...)` calls convert, or nothing when `fopen` fails.
* `findAllTopologicalOrdersLog` and `detectCycleLog` are the same functions
  with a record of their calls and stores; they are proved to compute the same
  states, and carry the statements about what happens during a run.
-/

namespace TopologicalSort

/-! ## Data model -/

/-- Colour of a vertex that has not been reached (`#define WHITE 0`). -/
def WHITE : Int := 0

/-- Colour of a vertex on the recursion stack (`#define GRAY 1`). -/
def GRAY : Int := 1

/-- Colour of a finished vertex (`#define BLACK 2`). -/
def BLACK : Int := 2

/-- The globals `n` and `adjacencyMatrix`. -/
structure Graph where
  n : Nat
  adjacencyMatrix : Nat → Nat → Int

/-- The globals `color` and `hasCycle`. -/
structure CycleState where
  color : Nat → Int
  hasCycle : Int

/-- Array store `a[i] = x`. -/
def setAt (a : Nat → Int) (i : Nat) (x : Int) : Nat → Int :=
  fun j => if j = i then x else a j

/-- Graph with `n` vertices whose matrix holds 1 exactly at the listed pairs. -/
def Graph.ofEdges (n : Nat) (es : List (Nat × Nat)) : Graph :=
  { n := n, adjacencyMatrix := fun u v => if (u, v) ∈ es then 1 else 0 }

/-- The `for` loop of `dfs(vertex)` over the remaining successors, followed by
`color[vertex] = BLACK`; `call` is the recursive call `dfs(i)`. -/
def dfsLoop (g : Graph) (call : Nat → CycleState → Option CycleState) (vertex : Nat) :
    List Nat → CycleState → Option CycleState
  | [], st => some { st with color := setAt st.color vertex BLACK }
  | i :: rest, st =>
    if g.adjacencyMatrix vertex i = 1 then
      if st.color i = GRAY then
        some { st with hasCycle := 1 }
      else if st.color i = WHITE then
        match call i st with
        | none => none
        | some st1 =>
          if st1.hasCycle ≠ 0 then some st1
          else dfsLoop g call vertex rest st1
      else dfsLoop g call vertex rest st
    else dfsLoop g call vertex rest st

/-- The function `dfs(vertex)`; `none` when the fuel runs out. -/
def dfs (g : Graph) : Nat → Nat → CycleState → Option CycleState
  | 0, _, _ => none
  | fuel + 1, vertex, st =>
    dfsLoop g (dfs g fuel) vertex (List.range g.n)
      { st with color := setAt st.color vertex GRAY }

/-- First loop of `detectCycle`: `color[i] = WHITE` for every `i`. -/
def resetColors : List Nat → (Nat → Int) → (Nat → Int)
  | [], c => c
  | i :: rest, c => resetColors rest (setAt c i WHITE)

/-- Second loop of `detectCycle`, with the final `return 0`. -/
def detectLoop (g : Graph) : List Nat → CycleState → Option (Int × CycleState)
  | [], st => some (0, st)
  | i :: rest, st =>
    if st.color i = WHITE then
      match dfs g g.n i st with
      | none => none
      | some st1 =>
        if st1.hasCycle ≠ 0 then some (1, st1)
        else detectLoop g rest st1
    else detectLoop g rest st

/-- The function `detectCycle()`, run from any content of `color` and
`hasCycle`: the returned value and the state it leaves. The recursion of `dfs`
is given fuel `n`, one unit per vertex that can still turn GRAY. -/
def detectCycle (g : Graph) (st : CycleState) : Option (Int × CycleState) :=
  detectLoop g (List.range g.n)
    { color := resetColors (List.range g.n) st.color, hasCycle := 0 }

/-- The value `detectCycle()` returns. -/
def detectCycleResult (g : Graph) (st : CycleState) : Option Int :=
  (detectCycle g st).map Prod.fst

/-! ## Enumeration (`printSolution`, `findAllTopologicalOrders`, `findAllTopologicalSorts`) -/

/-- The arrays `visited` and `currentOrder`, the global `solutionCount`, and the
solution lines printed so far: each line is the printed number and the printed
content of `currentOrder[0..n)`. -/
structure EnumState where
  visited : Nat → Int
  currentOrder : Nat → Int
  solutionCount : Int
  printed : List (Int × List Int)

/-- The value a 32-bit `int` holds after an arithmetic result `x`: `x` reduced
modulo `2^32` into the range `-2^31 .. 2^31 - 1`. -/
def wrapInt (x : Int) : Int :=
  (x + 2147483648) % 4294967296 - 2147483648

/-- The function `printSolution()`: `++solutionCount` on the 32-bit counter,
then one line with the new count and `currentOrder[0..n)`. -/
def printSolution (g : Graph) (st : EnumState) : EnumState :=
  { st with
    solutionCount := wrapInt (st.solutionCount + 1)
    printed := st.printed ++
      [(wrapInt (st.solutionCount + 1), (List.range g.n).map st.currentOrder)] }

/-- The inner loop of `findAllTopologicalOrders` over `pred`: the value of
`canPlace` after it, 0 as soon as a predecessor of `vertex` is not visited. -/
def canPlace (g : Graph) (visited : Nat → Int) (vertex : Nat) : List Nat → Int
  | [] => 1
  | pred :: rest =>
    if g.adjacencyMatrix pred vertex = 1 ∧ visited pred = 0 then 0
    else canPlace g visited vertex rest

/-- The `for` loop of `findAllTopologicalOrders(position, visited)` over the
remaining candidates; `call` is the recursive call at `position + 1`. -/
def placeLoop (g : Graph) (call : EnumState → Option EnumState) (position : Nat) :
    List Nat → EnumState → Option EnumState
  | [], st => some st
  | vertex :: rest, st =>
    if st.visited vertex ≠ 0 then placeLoop g call position rest st
    else if canPlace g st.visited vertex (List.range g.n) ≠ 0 then
      match call { st with
                   currentOrder := setAt st.currentOrder position vertex
                   visited := setAt st.visited vertex 1 } with
      | none => none
      | some st1 =>
        placeLoop g call position rest { st1 with visited := setAt st1.visited vertex 0 }
    else placeLoop g call position rest st

/-- The function `findAllTopologicalOrders(position, visited)`; `none` when the
fuel runs out. -/
def findAllTopologicalOrders (g : Graph) : Nat → Nat → EnumState → Option EnumState
  | 0, _, _ => none
  | fuel + 1, position, st =>
    if position = g.n then some (printSolution g st)
    else placeLoop g (findAllTopologicalOrders g fuel (position + 1)) position
      (List.range g.n) st

/-- What `findAllTopologicalSorts` prints after the search. -/
inductive Summary where
  | noOrdering : Summary
  | total : Int → Summary
  deriving DecidableEq

/-- Everything `findAllTopologicalSorts` leaves behind: the final
`solutionCount`, the solution lines, and the closing line. -/
structure SortsReport where
  solutionCount : Int
  printed : List (Int × List Int)
  summary : Summary
  deriving DecidableEq

/-- The function `findAllTopologicalSorts()`: `visited` is a fresh all-zero
array, `solutionCount` is reset, the search starts at position 0 (fuel `n + 1`:
one call per position `0..n`), and the closing line depends on the count.
`order0` is the content of `currentOrder` before the call. -/
def findAllTopologicalSorts (g : Graph) (order0 : Nat → Int) : Option SortsReport :=
  match findAllTopologicalOrders g (g.n + 1) 0
      { visited := fun _ => 0, currentOrder := order0, solutionCount := 0, printed := [] } with
  | none => none
  | some st =>
    some { solutionCount := st.solutionCount
           printed := st.printed
           summary := if st.solutionCount = 0 then Summary.noOrdering
                      else Summary.total st.solutionCount }

/-- The orderings the enumerator emits, in the order of emission. -/
def emitted (g : Graph) (order0 : Nat → Int) : Option (List (List Int)) :=
  (findAllTopologicalSorts g order0).map (fun r => r.printed.map Prod.snd)

/-- What a run of `main` on a loaded graph shows: the exit status, whether the
cycle error was printed, and the report of `findAllTopologicalSorts` when that
function was called. -/
structure MainReport where
  status : Int
  cycleError : Bool
  sorts : Option SortsReport
  deriving DecidableEq

/-- The body of `main` from the allocation of the arrays on: `color0` and
`order0` are the contents of the freshly allocated `color` and `currentOrder`,
`hasCycle0` is the value of the global flag. `calculateInDegrees` only writes
`inDegree`, which nothing reads, and is left out. -/
def mainLoaded (g : Graph) (color0 : Nat → Int) (hasCycle0 : Int) (order0 : Nat → Int) :
    Option MainReport :=
  match detectCycle g { color := color0, hasCycle := hasCycle0 } with
  | none => none
  | some (r, _) =>
    if r ≠ 0 then
      some { status := 1, cycleError := true, sorts := none }
    else
      match findAllTopologicalSorts g order0 with
      | none => none
      | some rep => some { status := 0, cycleError := false, sorts := some rep }

/-! ## Reading the graph (`readGraph`) and the whole of `main` -/

/-- The error line `readGraph` prints before it returns 0. -/
inductive ReadError where
  | cannotOpen : ReadError
  | cannotReadCount : ReadError
  | cannotReadMatrix : ReadError
  deriving DecidableEq

/-- Matrix store `m[i][j] = x`. -/
def setEntry (m : Nat → Nat → Int) (i j : Nat) (x : Int) : Nat → Nat → Int :=
  fun a b => if a = i ∧ b = j then x else m a b

/-- The inner loop of `readGraph` for row `i`, over the remaining columns:
each `fscanf` takes the next integer of the input. The result tells whether
every `fscanf` returned 1, and gives the input left and the matrix. -/
def readRow (i : Nat) :
    List Nat → List Int → (Nat → Nat → Int) → Bool × List Int × (Nat → Nat → Int)
  | [], input, m => (true, input, m)
  | j :: rest, input, m =>
    match input with
    | [] => (false, [], m)
    | x :: xs => readRow i rest xs (setEntry m i j x)

/-- The outer loop of `readGraph` over the remaining rows. -/
def readRows (n : Nat) :
    List Nat → List Int → (Nat → Nat → Int) → Bool × List Int × (Nat → Nat → Int)
  | [], input, m => (true, input, m)
  | i :: rest, input, m =>
    match readRow i (List.range n) input m with
    | (false, input1, m1) => (false, input1, m1)
    | (true, input1, m1) => readRows n rest input1 m1

/-- What `readGraph` leaves: the returned value, the error line if any, and
the globals `n` and `adjacencyMatrix`. -/
structure ReadReport where
  ret : Int
  error : Option ReadError
  n : Int
  adjacencyMatrix : Nat → Nat → Int

/-- The function `readGraph(filename)`. The file is `none` when `fopen` fails,
else the integers that successive `fscanf(file, "%d", ...)` calls convert, in
order; the `fscanf` after the last of them fails (end of file, or text that is
no integer). `n0` is the prior value of the global `n`, `matrix0` the content of
the freshly allocated rows. The loops run for `i, j < n`, so not at all when
`n` is negative. -/
def readGraph (file : Option (List Int)) (n0 : Int) (matrix0 : Nat → Nat → Int) : ReadReport :=
  match file with
  | none =>
    { ret := 0, error := some ReadError.cannotOpen, n := n0, adjacencyMatrix := matrix0 }
  | some [] =>
    { ret := 0, error := some ReadError.cannotReadCount, n := n0, adjacencyMatrix := matrix0 }
  | some (n :: rest) =>
    match readRows n.toNat (List.range n.toNat) rest matrix0 with
    | (false, _, m) =>
      { ret := 0, error := some ReadError.cannotReadMatrix, n := n, adjacencyMatrix := m }
    | (true, _, m) => { ret := 1, error := none, n := n, adjacencyMatrix := m }

/-- What a run of `main` shows: the exit status, the error line of `readGraph`
if any, and the report of the rest of `main` when `readGraph` returned
nonzero. -/
structure ProgramReport where
  status : Int
  readError : Option ReadError
  run : Option MainReport

/-- The rest of `main` when the global `n` is negative: every loop `i < n` is
skipped, so `detectCycle` returns 0; in `findAllTopologicalOrders(0, visited)`
the test `position == n` fails and the loop is skipped, so nothing is printed,
`solutionCount` stays 0 and the `solutionCount == 0` line is printed; `main`
returns 0. -/
def mainLoadedNegative : MainReport :=
  { status := 0
    cycleError := false
    sorts := some { solutionCount := 0, printed := [], summary := Summary.noOrdering } }

/-- The function `main()`: `if (!readGraph(...)) return 1;`, then the rest of
`main` on the globals `readGraph` set. -/
def main (file : Option (List Int)) (n0 : Int) (matrix0 : Nat → Nat → Int)
    (color0 : Nat → Int) (hasCycle0 : Int) (order0 : Nat → Int) : Option ProgramReport :=
  match readGraph file n0 matrix0 with
  | { ret := ret, error := error, n := n, adjacencyMatrix := m } =>
    if ret = 0 then some { status := 1, readError := error, run := none }
    else if 0 ≤ n then
      match mainLoaded { n := n.toNat, adjacencyMatrix := m } color0 hasCycle0 order0 with
      | none => none
      | some rep => some { status := rep.status, readError := error, run := some rep }
    else some { status := mainLoadedNegative.status, readError := error,
                run := some mainLoadedNegative }

/-! ## The search with a record of its calls -/

/-- One call `findAllTopologicalOrders(position, visited)`: its argument
`position`, the state at its entry, and the number of recursive calls it made. -/
structure CallRecord where
  position : Nat
  entry : EnumState
  calls : Nat

/-- The loop `placeLoop`, which also counts the recursive calls it makes and
collects the records of the calls below them, in the order of the calls. -/
def placeLoopLog (g : Graph) (call : EnumState → Option (EnumState × List CallRecord))
    (position : Nat) : List Nat → EnumState → Option (EnumState × Nat × List CallRecord)
  | [], st => some (st, 0, [])
  | vertex :: rest, st =>
    if st.visited vertex ≠ 0 then placeLoopLog g call position rest st
    else if canPlace g st.visited vertex (List.range g.n) ≠ 0 then
      match call { st with
                   currentOrder := setAt st.currentOrder position vertex
                   visited := setAt st.visited vertex 1 } with
      | none => none
      | some (st1, below) =>
        match placeLoopLog g call position rest
            { st1 with visited := setAt st1.visited vertex 0 } with
        | none => none
        | some (st2, k, later) => some (st2, k + 1, below ++ later)
    else placeLoopLog g call position rest st

/-- The function `findAllTopologicalOrders(position, visited)`, which also
returns the record of this call followed by the records of all calls below. -/
def findAllTopologicalOrdersLog (g : Graph) :
    Nat → Nat → EnumState → Option (EnumState × List CallRecord)
  | 0, _, _ => none
  | fuel + 1, position, st =>
    if position = g.n then
      some (printSolution g st, [{ position := position, entry := st, calls := 0 }])
    else
      match placeLoopLog g (findAllTopologicalOrdersLog g fuel (position + 1)) position
          (List.range g.n) st with
      | none => none
      | some (st1, k, below) =>
        some (st1, { position := position, entry := st, calls := k } :: below)

/-! ## Cycle detection with a record of its steps -/

/-- A step of `dfs`: a call `dfs(vertex)` with the colour of `vertex` at that
moment; a store `color[vertex] = new` with the colour it replaces; the test of a
successor `i` of `vertex` with the colour of `i`, and whether `hasCycle = 1` was
executed for it. -/
inductive DfsEvent where
  | call (vertex : Nat) (colorAtCall : Int) : DfsEvent
  | paint (vertex : Nat) (old new : Int) : DfsEvent
  | successor (vertex i : Nat) (colorSeen : Int) (flagSet : Bool) : DfsEvent

/-- The globals `color` and `hasCycle` with the steps recorded so far. -/
structure CycleTrace where
  color : Nat → Int
  hasCycle : Int
  events : List DfsEvent

/-- The globals of a recorded state. -/
def CycleTrace.state (t : CycleTrace) : CycleState :=
  { color := t.color, hasCycle := t.hasCycle }

/-- The loop `dfsLoop` with its steps recorded. -/
def dfsLoopLog (g : Graph) (call : Nat → CycleTrace → Option CycleTrace) (vertex : Nat) :
    List Nat → CycleTrace → Option CycleTrace
  | [], t =>
    some { t with
           color := setAt t.color vertex BLACK
           events := t.events ++ [DfsEvent.paint vertex (t.color vertex) BLACK] }
  | i :: rest, t =>
    if g.adjacencyMatrix vertex i = 1 then
      if t.color i = GRAY then
        some { t with
               hasCycle := 1
               events := t.events ++ [DfsEvent.successor vertex i (t.color i) true] }
      else if t.color i = WHITE then
        match call i { t with
                       events := t.events ++ [DfsEvent.successor vertex i (t.color i) false] } with
        | none => none
        | some t1 =>
          if t1.hasCycle ≠ 0 then some t1
          else dfsLoopLog g call vertex rest t1
      else dfsLoopLog g call vertex rest
        { t with events := t.events ++ [DfsEvent.successor vertex i (t.color i) false] }
    else dfsLoopLog g call vertex rest t

/-- The function `dfs(vertex)` with its steps recorded. -/
def dfsLog (g : Graph) : Nat → Nat → CycleTrace → Option CycleTrace
  | 0, _, _ => none
  | fuel + 1, vertex, t =>
    dfsLoopLog g (dfsLog g fuel) vertex (List.range g.n)
      { t with
        color := setAt t.color vertex GRAY
        events := t.events ++
          [DfsEvent.call vertex (t.color vertex), DfsEvent.paint vertex (t.color vertex) GRAY] }

/-- The second loop of `detectCycle` with the steps of `dfs` recorded. -/
def detectLoopLog (g : Graph) : List Nat → CycleTrace → Option (Int × CycleTrace)
  | [], t => some (0, t)
  | i :: rest, t =>
    if t.color i = WHITE then
      match dfsLog g g.n i t with
      | none => none
      | some t1 =>
        if t1.hasCycle ≠ 0 then some (1, t1)
        else detectLoopLog g rest t1
    else detectLoopLog g rest t

/-- The function `detectCycle()` with the steps of `dfs` after the reset
recorded. -/
def detectCycleLog (g : Graph) (st : CycleState) : Option (Int × CycleTrace) :=
  detectLoopLog g (List.range g.n)
    { color := resetColors (List.range g.n) st.color, hasCycle := 0, events := [] }

/-! ## Specification vocabulary for graphs -/

/-- The edge relation of the graph: `u -> v` iff `adjacencyMatrix[u][v] == 1`,
for vertices `u, v < n`. -/
def Edge (g : Graph) (u v : Nat) : Prop :=
  u < g.n ∧ v < g.n ∧ g.adjacencyMatrix u v = 1

instance (g : Graph) (u v : Nat) : Decidable (Edge g u v) := by
  unfold Edge
  infer_instance

/-- The graph contains a directed cycle: some vertex reaches itself along at
least one edge (a self-loop is a cycle of length one). -/
def HasCycle (g : Graph) : Prop :=
  ∃ v, Relation.TransGen (Edge g) v v

/-- An ordering is a valid topological order of the graph: it holds each
vertex `0..n-1` exactly once, and the source of every edge stands at a strictly
smaller index than its target. -/
def IsTopologicalOrder (g : Graph) (l : List Int) : Prop :=
  l.Perm ((List.range g.n).map (fun v : Nat => (v : Int))) ∧
  ∀ u v, Edge g u v → l.indexOf (u : Int) < l.indexOf (v : Int)

/-! ## Predicates used in the proofs about cycle detection -/

/-- Between two colourings a vertex keeps its colour or goes WHITE → BLACK. -/
def Mono (c c' : Nat → Int) : Prop :=
  ∀ u, c' u = c u ∨ (c u = WHITE ∧ c' u = BLACK)

/-- The same as `Mono`, off the vertex `v`. -/
def MonoOff (v : Nat) (c c' : Nat → Int) : Prop :=
  ∀ u, u ≠ v → (c' u = c u ∨ (c u = WHITE ∧ c' u = BLACK))

/-- Every GRAY vertex reaches `v`: the GRAY vertices are the recursion stack. -/
def GrayReach (g : Graph) (c : Nat → Int) (v : Nat) : Prop :=
  ∀ u, u < g.n → c u = GRAY → Relation.ReflTransGen (Edge g) u v

/-- What holds of the colouring whenever no cycle has been reported: colours
are one of the three constants, the successors of a BLACK vertex are BLACK,
and no BLACK vertex lies on a cycle. -/
structure Inv (g : Graph) (c : Nat → Int) : Prop where
  valid : ∀ u, u < g.n → c u = WHITE ∨ c u = GRAY ∨ c u = BLACK
  closed : ∀ u w, Edge g u w → c u = BLACK → c w = BLACK
  acyclic : ∀ u, c u = BLACK → ¬ Relation.TransGen (Edge g) u u

/-- The WHITE vertices, the measure of the recursion of `dfs`. -/
def whiteSet (g : Graph) (c : Nat → Int) : Finset Nat :=
  (Finset.range g.n).filter (fun u => c u = WHITE)

/-- Outcome of `dfs(v)` started in `st`: a cycle was reported and exists, or
`v` is BLACK, colours moved only WHITE → BLACK and the invariant holds. -/
def DfsPost (g : Graph) (v : Nat) (st st' : CycleState) : Prop :=
  (st'.hasCycle = 1 ∧ HasCycle g) ∨
  (st'.hasCycle = 0 ∧ st'.color v = BLACK ∧ Mono st.color st'.color ∧ Inv g st'.color)

/-- Precondition of a call `dfs(v)` that the search makes. -/
structure DfsPre (g : Graph) (f : Nat) (v : Nat) (st : CycleState) : Prop where
  lt : v < g.n
  white : st.color v = WHITE
  flag : st.hasCycle = 0
  fuel : (whiteSet g st.color).card ≤ f
  inv : Inv g st.color
  stack : GrayReach g st.color v

/-! ## Pure description of the search -/

/-- The orderings one candidate `v` contributes when `pre` is placed: those
reached through `pre ++ [v]` when `v` is not placed and every predecessor of
`v` is, none otherwise. -/
def extendWith (g : Graph) (pre : List Nat) (next : List Nat → List (List Nat)) (v : Nat) :
    List (List Nat) :=
  if v ∉ pre ∧ ∀ u ∈ List.range g.n, g.adjacencyMatrix u v = 1 → u ∈ pre then next (pre ++ [v])
  else []

/-- The complete orderings the search reaches from the placed vertices `pre`
with `k` positions left, in the order the search visits them. -/
def extensions (g : Graph) : Nat → List Nat → List (List Nat)
  | 0, pre => [pre]
  | k + 1, pre => (List.range g.n).flatMap (extendWith g pre (extensions g k))

/-- The counter after `k` executions of `++solutionCount`, started at `c`. -/
def bump (c : Int) : Nat → Int
  | 0 => c
  | k + 1 => bump (wrapInt (c + 1)) k

/-- The lines `printSolution` writes for the orderings `ls` when the counter
stands at `c`. -/
def number (c : Int) : List (List Int) → List (Int × List Int)
  | [] => []
  | l :: ls => (wrapInt (c + 1), l) :: number (wrapInt (c + 1)) ls

/-- A vertex list as `printSolution` shows it. -/
def asInts (l : List Nat) : List Int :=
  l.map (fun v : Nat => (v : Int))

/-- The state of the search when the vertices `pre` are placed, in this order:
`visited` marks them and `currentOrder` starts with them. -/
structure Placed (g : Graph) (pre : List Nat) (st : EnumState) : Prop where
  nodup : pre.Nodup
  lt : ∀ v ∈ pre, v < g.n
  visited : ∀ u, u < g.n → (st.visited u ≠ 0 ↔ u ∈ pre)
  order : (List.range pre.length).map st.currentOrder = asInts pre

/-- Effect of a call of the search at position `m` that emits the orderings
`exts`: `visited` is restored, `currentOrder` is kept below `m`, the counter
is incremented once per ordering and their lines are appended. -/
structure EnumPost (exts : List (List Nat)) (m : Nat) (st st' : EnumState) : Prop where
  visited : st'.visited = st.visited
  order : ∀ j, j < m → st'.currentOrder j = st.currentOrder j
  count : st'.solutionCount = bump st.solutionCount exts.length
  printed : st'.printed = st.printed ++ number st.solutionCount (exts.map asInts)

/-- A topological order as a list of vertex indices. -/
def IsTopoList (g : Graph) (l : List Nat) : Prop :=
  l.Perm (List.range g.n) ∧ ∀ u v, Edge g u v → l.indexOf u < l.indexOf v

/-- The vertices `suf` can be placed one after the other once `pre` is placed:
each is below `n`, not placed yet, and has all its predecessors placed. -/
def Placeable (g : Graph) : List Nat → List Nat → Prop
  | _, [] => True
  | pre, v :: suf =>
    v < g.n ∧ v ∉ pre ∧ (∀ u, u < g.n → g.adjacencyMatrix u v = 1 → u ∈ pre) ∧
      Placeable g (pre ++ [v]) suf

/-- What holds at the entry of a call of the search reached from the initial
call, when the vertices `pre` are placed: the state shows them placed, each of
them was placeable when it was placed, and `visited` holds only 0 and 1. -/
structure EntryInv (g : Graph) (pre : List Nat) (st : EnumState) : Prop where
  placed : Placed g pre st
  closed : Placeable g [] pre
  binary : ∀ u, u < g.n → st.visited u = 0 ∨ st.visited u = 1

/-- A recorded step respects the colour discipline: `dfs` is called on a WHITE
vertex, a store moves a colour WHITE → GRAY or GRAY → BLACK, and `hasCycle = 1`
is executed for a successor exactly when that successor is GRAY. -/
def DfsEvent.ok : DfsEvent → Prop
  | DfsEvent.call _ c => c = WHITE
  | DfsEvent.paint _ old new => (old = WHITE ∧ new = GRAY) ∨ (old = GRAY ∧ new = BLACK)
  | DfsEvent.successor _ _ c b => (b = true ↔ c = GRAY)

/-- The step executed `hasCycle = 1`. -/
def DfsEvent.setsFlag : DfsEvent → Prop
  | DfsEvent.successor _ _ _ b => b = true
  | _ => False

/-- Outcome of the recorded `dfs(v)` started in `t`, the steps `new` being
appended: the steps respect the colour discipline, and either the flag is 1 and
one step set it, or the flag is 0, no step set it, `v` is BLACK and the other
colours moved only WHITE → BLACK. -/
def DfsLogPost (v : Nat) (t t' : CycleTrace) : Prop :=
  ∃ new, t'.events = t.events ++ new ∧ (∀ e ∈ new, e.ok) ∧
    ((t'.hasCycle = 1 ∧ ∃ e ∈ new, e.setsFlag) ∨
     (t'.hasCycle = 0 ∧ (∀ e ∈ new, ¬ e.setsFlag) ∧ t'.color v = BLACK ∧
       Mono t.color t'.color))

/-- The ordering `A` comes before `B` lexicographically: the two agree on a
prefix `p`, and at the first index where they differ `A` holds the smaller
vertex index. -/
def LexBefore (A B : List Int) : Prop :=
  ∃ p a b s t, A = p ++ a :: s ∧ B = p ++ b :: t ∧ a < b

/-! # Theorems -/

/-! ## Array stores -/

theorem setAt_same (a : Nat → Int) (i : Nat) (x : Int) : setAt a i x i = x := by
  simp [setAt]

theorem setAt_other (a : Nat → Int) (i : Nat) (x : Int) (j : Nat) (h : j ≠ i) :
    setAt a i x j = a j := by
  simp [setAt, h]

theorem resetColors_apply (l : List Nat) :
    ∀ (c : Nat → Int) (u : Nat), resetColors l c u = if u ∈ l then WHITE else c u := by
  induction l with
  | nil => intro c u; simp [resetColors]
  | cons i rest ih =>
    intro c u
    simp only [resetColors, ih, List.mem_cons]
    by_cases h1 : u ∈ rest
    · simp [h1]
    · by_cases h2 : u = i
      · subst h2; simp [h1, setAt_same]
      · simp [h1, h2, setAt_other]

/-! ## Invariants of the three-colour search -/

theorem gray_ne_black : GRAY ≠ BLACK := by decide
theorem white_ne_black : WHITE ≠ BLACK := by decide
theorem white_ne_gray : WHITE ≠ GRAY := by decide

theorem Inv.closed_reach {g : Graph} {c : Nat → Int} (h : Inv g c) {u w : Nat}
    (hu : c u = BLACK) (hr : Relation.ReflTransGen (Edge g) u w) : c w = BLACK := by
  induction hr with
  | refl => exact hu
  | tail _ hbc ih => exact h.closed _ _ hbc ih

theorem Inv.markGray {g : Graph} {c : Nat → Int} (h : Inv g c) {v : Nat}
    (hv : c v = WHITE) : Inv g (setAt c v GRAY) := by
  have key : ∀ u, setAt c v GRAY u = BLACK → c u = BLACK := by
    intro u hu
    by_cases huv : u = v
    · subst huv; rw [setAt_same] at hu; exact absurd hu gray_ne_black
    · rwa [setAt_other _ _ _ _ huv] at hu
  refine ⟨?_, ?_, ?_⟩
  · intro u hu
    by_cases huv : u = v
    · subst huv; rw [setAt_same]; exact Or.inr (Or.inl rfl)
    · rw [setAt_other _ _ _ _ huv]; exact h.valid u hu
  · intro u w he hu
    have hw : c w = BLACK := h.closed u w he (key u hu)
    have hwv : w ≠ v := by
      rintro rfl
      rw [hv] at hw; exact white_ne_black hw
    rw [setAt_other _ _ _ _ hwv]; exact hw
  · intro u hu
    exact h.acyclic u (key u hu)

theorem Inv.markBlack {g : Graph} {c : Nat → Int} (h : Inv g c) {v : Nat}
    (hv : c v = GRAY) (hs : ∀ w, Edge g v w → c w = BLACK) : Inv g (setAt c v BLACK) := by
  have up : ∀ u, c u = BLACK → setAt c v BLACK u = BLACK := by
    intro u hu
    by_cases huv : u = v
    · subst huv; exact setAt_same _ _ _
    · rw [setAt_other _ _ _ _ huv]; exact hu
  refine ⟨?_, ?_, ?_⟩
  · intro u hu
    by_cases huv : u = v
    · subst huv; rw [setAt_same]; exact Or.inr (Or.inr rfl)
    · rw [setAt_other _ _ _ _ huv]; exact h.valid u hu
  · intro u w he hu
    by_cases huv : u = v
    · subst huv; exact up w (hs w he)
    · rw [setAt_other _ _ _ _ huv] at hu
      exact up w (h.closed u w he hu)
  · intro u hu hc
    by_cases huv : u = v
    · subst huv
      obtain ⟨w, hew, hwu⟩ := Relation.TransGen.head'_iff.mp hc
      have := h.closed_reach (hs w hew) hwu
      rw [hv] at this; exact gray_ne_black this
    · rw [setAt_other _ _ _ _ huv] at hu
      exact h.acyclic u hu hc

theorem whiteSet_subset_of_mono {g : Graph} {c c' : Nat → Int} (h : Mono c c') :
    whiteSet g c' ⊆ whiteSet g c := by
  intro u hu
  simp only [whiteSet, Finset.mem_filter, Finset.mem_range] at hu ⊢
  refine ⟨hu.1, ?_⟩
  rcases h u with h1 | ⟨h1, _⟩
  · rw [← h1]; exact hu.2
  · exact h1

theorem whiteSet_card_markGray {g : Graph} {c : Nat → Int} {v : Nat} (hv : v < g.n)
    (hc : c v = WHITE) : (whiteSet g (setAt c v GRAY)).card < (whiteSet g c).card := by
  apply Finset.card_lt_card
  rw [Finset.ssubset_iff_of_subset]
  · refine ⟨v, ?_, ?_⟩
    · simp [whiteSet, hv, hc]
    · simp [whiteSet, setAt_same, GRAY, WHITE]
  · intro u hu
    simp only [whiteSet, Finset.mem_filter, Finset.mem_range] at hu ⊢
    refine ⟨hu.1, ?_⟩
    by_cases huv : u = v
    · subst huv; exact hc
    · rw [← setAt_other c v GRAY u huv]; exact hu.2

/-! ## Correctness of `dfs` -/

theorem dfsLoop_spec (g : Graph) (f : Nat) (call : Nat → CycleState → Option CycleState)
    (v : Nat) (hv : v < g.n)
    (hcall : ∀ i st, DfsPre g f i st → ∃ st', call i st = some st' ∧ DfsPost g i st st') :
    ∀ (l : List Nat) (st : CycleState), (∀ i ∈ l, i < g.n) → st.hasCycle = 0 →
      st.color v = GRAY → (whiteSet g st.color).card ≤ f → Inv g st.color →
      GrayReach g st.color v → (∀ w, Edge g v w → w ∉ l → st.color w = BLACK) →
      ∃ st', dfsLoop g call v l st = some st' ∧
        ((st'.hasCycle = 1 ∧ HasCycle g) ∨
         (st'.hasCycle = 0 ∧ st'.color v = BLACK ∧ MonoOff v st.color st'.color ∧
           Inv g st'.color)) := by
  intro l
  induction l with
  | nil =>
    intro st _ hflag hgray _ hinv _ hdone
    refine ⟨_, rfl, Or.inr ⟨hflag, setAt_same _ _ _, ?_, ?_⟩⟩
    · intro u hu
      exact Or.inl (setAt_other _ _ _ _ hu)
    · exact hinv.markBlack hgray (fun w hw => hdone w hw (List.not_mem_nil w))
  | cons i rest ih =>
    intro st hl hflag hgray hfuel hinv hstack hdone
    have hi : i < g.n := hl i (List.mem_cons_self i rest)
    have hrest : ∀ j ∈ rest, j < g.n := fun j hj => hl j (List.mem_cons_of_mem i hj)
    simp only [dfsLoop]
    by_cases hadj : g.adjacencyMatrix v i = 1
    · rw [if_pos hadj]
      have hedge : Edge g v i := ⟨hv, hi, hadj⟩
      by_cases hig : st.color i = GRAY
      · rw [if_pos hig]
        exact ⟨_, rfl, Or.inl ⟨rfl, i, Relation.TransGen.tail' (hstack i hi hig) hedge⟩⟩
      · rw [if_neg hig]
        by_cases hiw : st.color i = WHITE
        · rw [if_pos hiw]
          have hpre : DfsPre g f i st :=
            ⟨hi, hiw, hflag, hfuel, hinv, fun u hu hug => (hstack u hu hug).tail hedge⟩
          obtain ⟨st1, hst1, hpost⟩ := hcall i st hpre
          rw [hst1]
          rcases hpost with ⟨hc1, hcyc⟩ | ⟨hc0, hib, hmono, hinv1⟩
          · have : st1.hasCycle ≠ 0 := by rw [hc1]; decide
            simp only [this, ne_eq, not_false_eq_true, if_true]
            exact ⟨_, rfl, Or.inl ⟨hc1, hcyc⟩⟩
          · simp only [hc0, ne_eq, not_true_eq_false, if_false]
            have hgray1 : st1.color v = GRAY := by
              rcases hmono v with h1 | ⟨h1, _⟩
              · rw [h1]; exact hgray
              · rw [hgray] at h1; exact absurd h1.symm white_ne_gray
            have hfuel1 : (whiteSet g st1.color).card ≤ f :=
              le_trans (Finset.card_le_card (whiteSet_subset_of_mono hmono)) hfuel
            have hstack1 : GrayReach g st1.color v := by
              intro u hu hug
              rcases hmono u with h1 | ⟨_, h1⟩
              · exact hstack u hu (h1 ▸ hug)
              · rw [hug] at h1; exact absurd h1 gray_ne_black
            have hdone1 : ∀ w, Edge g v w → w ∉ rest → st1.color w = BLACK := by
              intro w hw hwr
              by_cases hwi : w = i
              · subst hwi; exact hib
              · have hb : st.color w = BLACK := hdone w hw (by simp [hwi, hwr])
                rcases hmono w with h1 | ⟨h1, _⟩
                · rw [h1]; exact hb
                · rw [hb] at h1; exact absurd h1.symm white_ne_black
            obtain ⟨st2, hst2, hpost2⟩ := ih st1 hrest hc0 hgray1 hfuel1 hinv1 hstack1 hdone1
            refine ⟨st2, hst2, ?_⟩
            rcases hpost2 with h2 | ⟨h20, h2b, h2m, h2i⟩
            · exact Or.inl h2
            · refine Or.inr ⟨h20, h2b, ?_, h2i⟩
              intro u huv
              rcases h2m u huv with a | ⟨a1, a2⟩
              · rcases hmono u with b | b
                · exact Or.inl (a.trans b)
                · exact Or.inr ⟨b.1, a.trans b.2⟩
              · rcases hmono u with b | b
                · exact Or.inr ⟨b ▸ a1, a2⟩
                · rw [b.2] at a1; exact absurd a1.symm white_ne_black
        · rw [if_neg hiw]
          apply ih st hrest hflag hgray hfuel hinv hstack
          intro w hw hwr
          by_cases hwi : w = i
          · subst hwi
            rcases hinv.valid w hi with h1 | h1 | h1
            · exact absurd h1 hiw
            · exact absurd h1 hig
            · exact h1
          · exact hdone w hw (by simp [hwi, hwr])
    · rw [if_neg hadj]
      apply ih st hrest hflag hgray hfuel hinv hstack
      intro w hw hwr
      by_cases hwi : w = i
      · subst hwi; exact absurd hw.2.2 hadj
      · exact hdone w hw (by simp [hwi, hwr])

theorem dfs_spec (g : Graph) :
    ∀ (f : Nat) (v : Nat) (st : CycleState), DfsPre g f v st →
      ∃ st', dfs g f v st = some st' ∧ DfsPost g v st st' := by
  intro f
  induction f with
  | zero =>
    intro v st hpre
    have hmem : v ∈ whiteSet g st.color := by
      simp [whiteSet, hpre.lt, hpre.white]
    have := Finset.card_pos.mpr ⟨v, hmem⟩
    have := hpre.fuel
    omega
  | succ f ih =>
    intro v st hpre
    simp only [dfs]
    have hcard := whiteSet_card_markGray hpre.lt hpre.white
    have hstack0 : GrayReach g (setAt st.color v GRAY) v := by
      intro u hu hug
      by_cases huv : u = v
      · subst huv; exact Relation.ReflTransGen.refl
      · rw [setAt_other _ _ _ _ huv] at hug
        exact hpre.stack u hu hug
    obtain ⟨st', hst', hpost⟩ := dfsLoop_spec g f (dfs g f) v hpre.lt ih (List.range g.n)
      { st with color := setAt st.color v GRAY } (fun i hi => List.mem_range.mp hi)
      hpre.flag (setAt_same _ _ _) (by have := hpre.fuel; simp only; omega)
      (hpre.inv.markGray hpre.white) hstack0
      (fun w hw hwr => absurd (List.mem_range.mpr hw.2.1) hwr)
    refine ⟨st', hst', ?_⟩
    rcases hpost with h | ⟨h0, hb, hm, hi⟩
    · exact Or.inl h
    · refine Or.inr ⟨h0, hb, ?_, hi⟩
      intro u
      by_cases huv : u = v
      · subst huv; exact Or.inr ⟨hpre.white, hb⟩
      · have := hm u huv
        simp only [setAt_other _ _ _ _ huv] at this
        exact this

theorem detectLoop_spec (g : Graph) :
    ∀ (l : List Nat) (st : CycleState), (∀ i ∈ l, i < g.n) → st.hasCycle = 0 →
      Inv g st.color → (∀ u, u < g.n → st.color u ≠ GRAY) →
      (∀ u, u < g.n → u ∉ l → st.color u = BLACK) →
      ∃ r st', detectLoop g l st = some (r, st') ∧
        ((r = 1 ∧ HasCycle g) ∨
         (r = 0 ∧ ¬ HasCycle g ∧ st'.hasCycle = 0 ∧ ∀ u, u < g.n → st'.color u = BLACK)) := by
  intro l
  induction l with
  | nil =>
    intro st _ hflag hinv _ hdone
    refine ⟨0, st, rfl, Or.inr ⟨rfl, ?_, hflag, fun u hu => hdone u hu (List.not_mem_nil u)⟩⟩
    rintro ⟨v, hv⟩
    obtain ⟨w, hvw, _⟩ := Relation.TransGen.head'_iff.mp hv
    exact hinv.acyclic v (hdone v hvw.1 (List.not_mem_nil v)) hv
  | cons i rest ih =>
    intro st hl hflag hinv hnog hdone
    have hi : i < g.n := hl i (List.mem_cons_self i rest)
    have hrest : ∀ j ∈ rest, j < g.n := fun j hj => hl j (List.mem_cons_of_mem i hj)
    simp only [detectLoop]
    by_cases hiw : st.color i = WHITE
    · rw [if_pos hiw]
      have hpre : DfsPre g g.n i st := by
        refine ⟨hi, hiw, hflag, ?_, hinv, fun u hu hug => absurd hug (hnog u hu)⟩
        calc (whiteSet g st.color).card ≤ (Finset.range g.n).card :=
              Finset.card_le_card (Finset.filter_subset _ _)
          _ = g.n := Finset.card_range _
      obtain ⟨st1, hst1, hpost⟩ := dfs_spec g g.n i st hpre
      rw [hst1]
      rcases hpost with ⟨hc1, hcyc⟩ | ⟨hc0, hib, hmono, hinv1⟩
      · have : st1.hasCycle ≠ 0 := by rw [hc1]; decide
        simp only [this, ne_eq, not_false_eq_true, if_true]
        exact ⟨1, st1, rfl, Or.inl ⟨rfl, hcyc⟩⟩
      · simp only [hc0, ne_eq, not_true_eq_false, if_false]
        apply ih st1 hrest hc0 hinv1
        · intro u hu hug
          rcases hmono u with h1 | ⟨_, h1⟩
          · exact hnog u hu (h1 ▸ hug)
          · rw [hug] at h1; exact gray_ne_black h1
        · intro u hu hur
          by_cases hui : u = i
          · subst hui; exact hib
          · have hb : st.color u = BLACK := hdone u hu (by simp [hui, hur])
            rcases hmono u with h1 | ⟨h1, _⟩
            · rw [h1]; exact hb
            · rw [hb] at h1; exact absurd h1.symm white_ne_black
    · rw [if_neg hiw]
      apply ih st hrest hflag hinv hnog
      intro u hu hur
      by_cases hui : u = i
      · subst hui
        rcases hinv.valid u hi with h1 | h1 | h1
        · exact absurd h1 hiw
        · exact absurd h1 (hnog u hi)
        · exact h1
      · exact hdone u hu (by simp [hui, hur])

/-- From any prior state `detectCycle` returns, with 1 when the graph has a
cycle and 0 when it has none. -/
theorem detectCycle_spec (g : Graph) (st : CycleState) :
    ∃ r st', detectCycle g st = some (r, st') ∧
      ((r = 1 ∧ HasCycle g) ∨ (r = 0 ∧ ¬ HasCycle g)) := by
  have hwhite : ∀ u, u < g.n → resetColors (List.range g.n) st.color u = WHITE := by
    intro u hu
    rw [resetColors_apply, if_pos (List.mem_range.mpr hu)]
  have hinv : Inv g (resetColors (List.range g.n) st.color) := by
    refine ⟨fun u hu => Or.inl (hwhite u hu), ?_, ?_⟩
    · intro u w he hb
      rw [hwhite u he.1] at hb; exact absurd hb white_ne_black
    · intro u hb hc
      obtain ⟨w, huw, _⟩ := Relation.TransGen.head'_iff.mp hc
      rw [hwhite u huw.1] at hb; exact absurd hb white_ne_black
  obtain ⟨r, st', h, hpost⟩ := detectLoop_spec g (List.range g.n)
    { color := resetColors (List.range g.n) st.color, hasCycle := 0 }
    (fun i hi => List.mem_range.mp hi) rfl hinv
    (fun u hu hg => white_ne_gray ((hwhite u hu).symm.trans hg))
    (fun u hu hur => absurd (List.mem_range.mpr hu) hur)
  refine ⟨r, st', h, ?_⟩
  rcases hpost with h1 | ⟨h0, hn, _⟩
  · exact Or.inl h1
  · exact Or.inr ⟨h0, hn⟩

/-! ## The search refines its pure description -/

theorem wrapInt_add_left (x y : Int) : wrapInt (wrapInt x + y) = wrapInt (x + y) := by
  unfold wrapInt
  omega

theorem bump_add (a b : Nat) : ∀ c : Int, bump (bump c a) b = bump c (a + b) := by
  induction a with
  | zero => intro c; simp [bump]
  | succ a ih =>
    intro c
    have e : a + 1 + b = (a + b) + 1 := by omega
    rw [e]
    exact ih (wrapInt (c + 1))

theorem bump_succ (k : Nat) : ∀ c : Int, bump c (k + 1) = wrapInt (c + ((k + 1 : Nat) : Int)) := by
  induction k with
  | zero => intro c; simp [bump]
  | succ k ih =>
    intro c
    show bump (wrapInt (c + 1)) (k + 1) = _
    rw [ih, wrapInt_add_left]
    congr 1
    push_cast
    ring

theorem bump_zero_start (k : Nat) : bump 0 k = wrapInt (k : Int) := by
  cases k with
  | zero => rfl
  | succ k => rw [bump_succ, zero_add]

theorem number_append (c : Int) (a b : List (List Int)) :
    number c (a ++ b) = number c a ++ number (bump c a.length) b := by
  induction a generalizing c with
  | nil => simp [number, bump]
  | cons x xs ih =>
    show (wrapInt (c + 1), x) :: number (wrapInt (c + 1)) (xs ++ b) = _
    rw [ih]
    rfl

theorem number_snd (c : Int) (a : List (List Int)) : (number c a).map Prod.snd = a := by
  induction a generalizing c with
  | nil => rfl
  | cons x xs ih => simp [number, ih]

theorem EnumPost.refl (m : Nat) (st : EnumState) : EnumPost [] m st st :=
  ⟨rfl, fun _ _ => rfl, by simp [bump], by simp [number]⟩

theorem EnumPost.trans {e1 e2 : List (List Nat)} {m : Nat} {st st1 st2 : EnumState}
    (h1 : EnumPost e1 m st st1) (h2 : EnumPost e2 m st1 st2) : EnumPost (e1 ++ e2) m st st2 := by
  refine ⟨h2.visited.trans h1.visited, fun j hj => (h2.order j hj).trans (h1.order j hj), ?_, ?_⟩
  · rw [h2.count, h1.count, List.length_append, bump_add]
  · rw [h2.printed, h1.printed, h1.count, List.map_append, number_append, List.length_map,
      List.append_assoc]

theorem Placed.of_post {g : Graph} {pre : List Nat} {st st' : EnumState} (h : Placed g pre st)
    (hv : st'.visited = st.visited)
    (ho : ∀ j, j < pre.length → st'.currentOrder j = st.currentOrder j) : Placed g pre st' := by
  refine ⟨h.nodup, h.lt, fun u hu => by rw [hv]; exact h.visited u hu, ?_⟩
  rw [← h.order]
  apply List.map_congr_left
  intro j hj
  exact ho j (List.mem_range.mp hj)

theorem canPlace_ne_zero (g : Graph) (vis : Nat → Int) (v : Nat) (l : List Nat) :
    canPlace g vis v l ≠ 0 ↔ ∀ u ∈ l, g.adjacencyMatrix u v = 1 → vis u ≠ 0 := by
  induction l with
  | nil => simp [canPlace]
  | cons p rest ih =>
    simp only [canPlace, List.mem_cons, forall_eq_or_imp]
    by_cases h : g.adjacencyMatrix p v = 1 ∧ vis p = 0
    · rw [if_pos h]
      simp only [ne_eq, not_true_eq_false, false_iff, not_and]
      intro h1
      exact absurd h.2 (h1 h.1)
    · rw [if_neg h, ih]
      constructor
      · intro h1
        exact ⟨fun ha hv => h ⟨ha, hv⟩, h1⟩
      · intro h1
        exact h1.2

theorem Placed.canPlace_iff {g : Graph} {pre : List Nat} {st : EnumState} (h : Placed g pre st)
    (v : Nat) :
    canPlace g st.visited v (List.range g.n) ≠ 0 ↔
      ∀ u ∈ List.range g.n, g.adjacencyMatrix u v = 1 → u ∈ pre := by
  rw [canPlace_ne_zero]
  constructor
  · intro h1 u hu ha
    exact (h.visited u (List.mem_range.mp hu)).mp (h1 u hu ha)
  · intro h1 u hu ha
    exact (h.visited u (List.mem_range.mp hu)).mpr (h1 u hu ha)

theorem Placed.place {g : Graph} {pre : List Nat} {st : EnumState} (h : Placed g pre st)
    {v : Nat} (hv : v < g.n) (hnot : v ∉ pre) :
    Placed g (pre ++ [v])
      { st with currentOrder := setAt st.currentOrder pre.length v
                visited := setAt st.visited v 1 } := by
  refine ⟨?_, ?_, ?_, ?_⟩
  · rw [List.nodup_append]
    refine ⟨h.nodup, List.nodup_singleton v, ?_⟩
    intro a ha hb
    rw [List.mem_singleton] at hb
    subst hb
    exact hnot ha
  · intro u hu
    rcases List.mem_append.mp hu with h1 | h1
    · exact h.lt u h1
    · rw [List.mem_singleton] at h1; subst h1; exact hv
  · intro u hu
    simp only [List.mem_append, List.mem_singleton]
    by_cases huv : u = v
    · subst huv; simp [setAt_same]
    · rw [setAt_other _ _ _ _ huv, h.visited u hu]; simp [huv]
  · simp only [List.length_append, List.length_singleton, List.range_succ, List.map_append,
      List.map_cons, List.map_nil, setAt_same, asInts]
    congr 1
    rw [← asInts, ← h.order]
    apply List.map_congr_left
    intro j hj
    have : j ≠ pre.length := Nat.ne_of_lt (List.mem_range.mp hj)
    exact setAt_other _ _ _ _ this

theorem extendWith_of_not {g : Graph} {pre : List Nat} {next : List Nat → List (List Nat)}
    {v : Nat} (h : ¬ (v ∉ pre ∧ ∀ u ∈ List.range g.n, g.adjacencyMatrix u v = 1 → u ∈ pre)) :
    extendWith g pre next v = [] := by
  simp only [extendWith, if_neg h]

theorem extendWith_of_ok {g : Graph} {pre : List Nat} {next : List Nat → List (List Nat)}
    {v : Nat} (h : v ∉ pre ∧ ∀ u ∈ List.range g.n, g.adjacencyMatrix u v = 1 → u ∈ pre) :
    extendWith g pre next v = next (pre ++ [v]) := by
  simp only [extendWith, if_pos h]

theorem placeLoop_spec (g : Graph) (pre : List Nat) (next : List Nat → List (List Nat))
    (call : EnumState → Option EnumState)
    (hcall : ∀ v st, Placed g (pre ++ [v]) st →
      ∃ st', call st = some st' ∧ EnumPost (next (pre ++ [v])) (pre.length + 1) st st') :
    ∀ (cs : List Nat) (st : EnumState), (∀ v ∈ cs, v < g.n) → Placed g pre st →
      ∃ st', placeLoop g call pre.length cs st = some st' ∧
        EnumPost (cs.flatMap (extendWith g pre next)) pre.length st st' := by
  intro cs
  induction cs with
  | nil =>
    intro st _ _
    exact ⟨st, rfl, EnumPost.refl _ _⟩
  | cons v rest ih =>
    intro st hcs hpl
    have hv : v < g.n := hcs v (List.mem_cons_self v rest)
    have hrest : ∀ w ∈ rest, w < g.n := fun w hw => hcs w (List.mem_cons_of_mem v hw)
    simp only [placeLoop, List.flatMap_cons]
    by_cases hvis : st.visited v ≠ 0
    · rw [if_pos hvis]
      have hmem : v ∈ pre := (hpl.visited v hv).mp hvis
      rw [extendWith_of_not (fun h => h.1 hmem), List.nil_append]
      exact ih st hrest hpl
    · rw [if_neg hvis]
      have hnot : v ∉ pre := fun h => hvis ((hpl.visited v hv).mpr h)
      by_cases hcan : canPlace g st.visited v (List.range g.n) ≠ 0
      · rw [if_pos hcan]
        have hok := (hpl.canPlace_iff v).mp hcan
        rw [extendWith_of_ok ⟨hnot, hok⟩]
        obtain ⟨st1, hst1, hp1⟩ := hcall v _ (hpl.place hv hnot)
        rw [hst1]
        have hzero : st.visited v = 0 := not_not.mp hvis
        have hback : EnumPost (next (pre ++ [v])) pre.length st
            { st1 with visited := setAt st1.visited v 0 } := by
          refine ⟨?_, ?_, hp1.count, hp1.printed⟩
          · funext u
            show setAt st1.visited v 0 u = st.visited u
            rw [hp1.visited]
            by_cases huv : u = v
            · subst huv; rw [setAt_same, hzero]
            · rw [setAt_other _ _ _ _ huv]; exact setAt_other _ _ _ _ huv
          · intro j hj
            show st1.currentOrder j = st.currentOrder j
            rw [hp1.order j (Nat.lt_succ_of_lt hj)]
            exact setAt_other _ _ _ _ (Nat.ne_of_lt hj)
        obtain ⟨st2, hst2, hp2⟩ := ih _ hrest (hpl.of_post hback.visited hback.order)
        exact ⟨st2, hst2, hback.trans hp2⟩
      · rw [if_neg hcan]
        have hno : ¬ (∀ u ∈ List.range g.n, g.adjacencyMatrix u v = 1 → u ∈ pre) :=
          fun h => hcan ((hpl.canPlace_iff v).mpr h)
        rw [extendWith_of_not (fun h => hno h.2), List.nil_append]
        exact ih st hrest hpl

theorem findAllTopologicalOrders_spec (g : Graph) :
    ∀ (k fuel : Nat) (pre : List Nat) (st : EnumState), pre.length + k = g.n → k < fuel →
      Placed g pre st →
      ∃ st', findAllTopologicalOrders g fuel pre.length st = some st' ∧
        EnumPost (extensions g k pre) pre.length st st' := by
  intro k
  induction k with
  | zero =>
    intro fuel pre st hlen hfuel hpl
    obtain ⟨f, rfl⟩ : ∃ f, fuel = f + 1 := ⟨fuel - 1, by omega⟩
    have hn : pre.length = g.n := by omega
    simp only [findAllTopologicalOrders, if_pos hn]
    refine ⟨_, rfl, ⟨rfl, fun _ _ => rfl, ?_, ?_⟩⟩
    · simp [printSolution, extensions, bump]
    · simp only [printSolution, extensions, List.map_cons, List.map_nil, number]
      rw [← hn, hpl.order]
  | succ k ih =>
    intro fuel pre st hlen hfuel hpl
    obtain ⟨f, rfl⟩ : ∃ f, fuel = f + 1 := ⟨fuel - 1, by omega⟩
    have hn : pre.length ≠ g.n := by omega
    simp only [findAllTopologicalOrders, if_neg hn, extensions]
    apply placeLoop_spec g pre (extensions g k) _ _ _ st (fun v hv => List.mem_range.mp hv) hpl
    intro v st1 hpl1
    have := ih f (pre ++ [v]) st1 (by simp; omega) (by omega) hpl1
    simpa using this

/-- The run of `findAllTopologicalSorts` in terms of the pure description. -/
theorem findAllTopologicalSorts_eq (g : Graph) (order0 : Nat → Int) :
    findAllTopologicalSorts g order0 =
      some { solutionCount := wrapInt ((extensions g g.n []).length : Int)
             printed := number 0 ((extensions g g.n []).map asInts)
             summary := if wrapInt ((extensions g g.n []).length : Int) = 0
                        then Summary.noOrdering
                        else Summary.total (wrapInt ((extensions g g.n []).length : Int)) } := by
  have hpl : Placed g []
      { visited := fun _ => 0, currentOrder := order0, solutionCount := 0, printed := [] } :=
    ⟨List.nodup_nil, fun v hv => absurd hv (List.not_mem_nil v), fun u _ => by simp, rfl⟩
  obtain ⟨st', hst', hp⟩ := findAllTopologicalOrders_spec g g.n (g.n + 1) [] _ (by simp)
    (Nat.lt_succ_self _) hpl
  simp only [List.length_nil] at hst'
  simp only [findAllTopologicalSorts, hst', hp.count, hp.printed, bump_zero_start,
    List.nil_append]

theorem emitted_eq (g : Graph) (order0 : Nat → Int) :
    emitted g order0 = some ((extensions g g.n []).map asInts) := by
  simp only [emitted, findAllTopologicalSorts_eq, Option.map_some', number_snd]

/-! ## The pure description yields exactly the topological orders -/

theorem mem_extensions (g : Graph) :
    ∀ (k : Nat) (pre l : List Nat),
      l ∈ extensions g k pre ↔ ∃ suf, l = pre ++ suf ∧ suf.length = k ∧ Placeable g pre suf := by
  intro k
  induction k with
  | zero =>
    intro pre l
    simp only [extensions, List.mem_singleton]
    constructor
    · intro h
      exact ⟨[], by simp [h], rfl, trivial⟩
    · rintro ⟨suf, h1, h2, _⟩
      rw [List.length_eq_zero] at h2
      simp [h1, h2]
  | succ k ih =>
    intro pre l
    simp only [extensions, List.mem_flatMap, List.mem_range]
    constructor
    · rintro ⟨v, hv, hl⟩
      by_cases hc : v ∉ pre ∧ ∀ u ∈ List.range g.n, g.adjacencyMatrix u v = 1 → u ∈ pre
      · rw [extendWith_of_ok hc, ih] at hl
        obtain ⟨suf, h1, h2, h3⟩ := hl
        refine ⟨v :: suf, by simp [h1], by simp [h2], hv, hc.1, ?_, h3⟩
        intro u hu ha
        exact hc.2 u (List.mem_range.mpr hu) ha
      · rw [extendWith_of_not hc] at hl
        exact absurd hl (List.not_mem_nil l)
    · rintro ⟨suf, h1, h2, h3⟩
      cases suf with
      | nil => simp at h2
      | cons v suf =>
        obtain ⟨hv, hnot, hpred, hrest⟩ := h3
        refine ⟨v, hv, ?_⟩
        rw [extendWith_of_ok ⟨hnot, fun u hu ha => hpred u (List.mem_range.mp hu) ha⟩, ih]
        exact ⟨suf, by simp [h1], by simpa using h2, hrest⟩

theorem Placeable.nodup_lt {g : Graph} :
    ∀ (suf pre : List Nat), Placeable g pre suf → pre.Nodup → (∀ v ∈ pre, v < g.n) →
      (pre ++ suf).Nodup ∧ ∀ v ∈ pre ++ suf, v < g.n := by
  intro suf
  induction suf with
  | nil =>
    intro pre _ hnd hlt
    simpa using ⟨hnd, hlt⟩
  | cons v suf ih =>
    intro pre hp hnd hlt
    obtain ⟨hv, hnot, _, hrest⟩ := hp
    have hnd1 : (pre ++ [v]).Nodup := by
      rw [List.nodup_append]
      refine ⟨hnd, List.nodup_singleton v, ?_⟩
      intro a ha hb
      rw [List.mem_singleton] at hb
      subst hb
      exact hnot ha
    have hlt1 : ∀ w ∈ pre ++ [v], w < g.n := by
      intro w hw
      rcases List.mem_append.mp hw with h1 | h1
      · exact hlt w h1
      · rw [List.mem_singleton] at h1; subst h1; exact hv
    have := ih (pre ++ [v]) hrest hnd1 hlt1
    simpa using this

theorem Placeable.before {g : Graph} :
    ∀ (suf pre : List Nat), Placeable g pre suf →
      (∀ u v, Edge g u v → v ∈ pre → pre.indexOf u < pre.indexOf v) →
      ∀ u v, Edge g u v → v ∈ pre ++ suf → (pre ++ suf).indexOf u < (pre ++ suf).indexOf v := by
  intro suf
  induction suf with
  | nil =>
    intro pre _ hpre
    simpa using hpre
  | cons w suf ih =>
    intro pre hp hpre
    obtain ⟨_, hnot, hpred, hrest⟩ := hp
    have key := ih (pre ++ [w]) hrest (by
      intro u v he hv
      rcases List.mem_append.mp hv with h1 | h1
      · have hlt := hpre u v he h1
        have hu : u ∈ pre :=
          List.indexOf_lt_length.mp (lt_trans hlt (List.indexOf_lt_length.mpr h1))
        rw [List.indexOf_append_of_mem hu, List.indexOf_append_of_mem h1]
        exact hlt
      · rw [List.mem_singleton] at h1
        subst h1
        have hu : u ∈ pre := hpred u he.1 he.2.2
        rw [List.indexOf_append_of_mem hu, List.indexOf_append_of_not_mem hnot]
        exact lt_of_lt_of_le (List.indexOf_lt_length.mpr hu) (Nat.le_add_right _ _))
    simpa using key

theorem Placeable.of_order {g : Graph} (l : List Nat) (hnd : l.Nodup) (hlt : ∀ v ∈ l, v < g.n)
    (hord : ∀ u v, Edge g u v → l.indexOf u < l.indexOf v) :
    ∀ (suf pre : List Nat), l = pre ++ suf → Placeable g pre suf := by
  intro suf
  induction suf with
  | nil => intro pre _; trivial
  | cons v suf ih =>
    intro pre hl
    have hv : v ∈ l := by rw [hl]; simp
    have hnot : v ∉ pre := by
      intro h
      rw [hl, List.nodup_append] at hnd
      exact hnd.2.2 h (List.mem_cons_self v suf)
    refine ⟨hlt v hv, hnot, ?_, ih (pre ++ [v]) (by simp [hl])⟩
    intro u hu ha
    have h1 := hord u v ⟨hu, hlt v hv, ha⟩
    rw [hl, List.indexOf_append_of_not_mem hnot, List.indexOf_cons_self, Nat.add_zero] at h1
    by_contra hup
    rw [List.indexOf_append_of_not_mem hup] at h1
    omega

theorem perm_range_of_nodup {n : Nat} {l : List Nat} (hnd : l.Nodup) (hlt : ∀ v ∈ l, v < n)
    (hlen : l.length = n) : l.Perm (List.range n) := by
  apply List.Subperm.perm_of_length_le
  · exact List.subperm_of_subset hnd (fun v hv => List.mem_range.mpr (hlt v hv))
  · simp [hlen]

theorem isTopoList_iff (g : Graph) (l : List Nat) :
    IsTopoList g l ↔ l.length = g.n ∧ Placeable g [] l := by
  constructor
  · rintro ⟨hperm, hord⟩
    refine ⟨by simpa using hperm.length_eq, ?_⟩
    have hnd : l.Nodup := hperm.nodup_iff.mpr (List.nodup_range g.n)
    have hlt : ∀ v ∈ l, v < g.n := fun v hv => List.mem_range.mp (hperm.subset hv)
    exact Placeable.of_order l hnd hlt hord l [] rfl
  · rintro ⟨hlen, hp⟩
    have h1 := Placeable.nodup_lt l [] hp List.nodup_nil (fun v hv => absurd hv (List.not_mem_nil v))
    simp only [List.nil_append] at h1
    have hperm := perm_range_of_nodup h1.1 h1.2 hlen
    refine ⟨hperm, ?_⟩
    intro u v he
    have h2 := Placeable.before l [] hp (fun u v _ hv => absurd hv (List.not_mem_nil v)) u v he
    simp only [List.nil_append] at h2
    exact h2 (hperm.mem_iff.mpr (List.mem_range.mpr he.2.1))

theorem mem_extensions_root (g : Graph) (l : List Nat) :
    l ∈ extensions g g.n [] ↔ IsTopoList g l := by
  rw [mem_extensions, isTopoList_iff]
  constructor
  · rintro ⟨suf, h1, h2, h3⟩
    simp only [List.nil_append] at h1
    subst h1
    exact ⟨h2, h3⟩
  · rintro ⟨h1, h2⟩
    exact ⟨l, by simp, h1, h2⟩

theorem nodup_extensions (g : Graph) :
    ∀ (k : Nat) (pre : List Nat), (extensions g k pre).Nodup := by
  intro k
  induction k with
  | zero => intro pre; simp [extensions]
  | succ k ih =>
    intro pre
    simp only [extensions]
    rw [List.nodup_flatMap]
    constructor
    · intro v _
      by_cases hc : v ∉ pre ∧ ∀ u ∈ List.range g.n, g.adjacencyMatrix u v = 1 → u ∈ pre
      · rw [extendWith_of_ok hc]; exact ih _
      · rw [extendWith_of_not hc]; exact List.nodup_nil
    · apply (List.nodup_range g.n).pairwise_of_forall_ne
      intro v _ w _ hvw
      have hmem : ∀ (x : Nat) (l : List Nat), l ∈ extendWith g pre (extensions g k) x →
          ∃ suf, l = pre ++ x :: suf := by
        intro x l hl
        by_cases hc : x ∉ pre ∧ ∀ u ∈ List.range g.n, g.adjacencyMatrix u x = 1 → u ∈ pre
        · rw [extendWith_of_ok hc, mem_extensions] at hl
          obtain ⟨suf, h1, _, _⟩ := hl
          exact ⟨suf, by simp [h1]⟩
        · rw [extendWith_of_not hc] at hl
          exact absurd hl (List.not_mem_nil l)
      intro l hl1 hl2
      obtain ⟨s1, h1⟩ := hmem v l hl1
      obtain ⟨s2, h2⟩ := hmem w l hl2
      rw [h1] at h2
      have := List.append_cancel_left h2
      exact hvw (List.cons.inj this).1

/-! ## Orderings as printed and as vertex lists -/

theorem asInts_injective : Function.Injective asInts :=
  List.map_injective_iff.mpr Nat.cast_injective

theorem indexOf_asInts (l : List Nat) (u : Nat) : (asInts l).indexOf (u : Int) = l.indexOf u := by
  induction l with
  | nil => rfl
  | cons a t ih =>
    show List.indexOf (u : Int) ((a : Int) :: asInts t) = _
    by_cases h : a = u
    · subst h
      rw [List.indexOf_cons_self, List.indexOf_cons_self]
    · have h' : (a : Int) ≠ (u : Int) := fun e => h (Nat.cast_injective e)
      rw [List.indexOf_cons_ne _ h', List.indexOf_cons_ne _ h, ih]

theorem asInts_toNat (L : List Int) (h : ∀ x ∈ L, 0 ≤ x) : asInts (L.map Int.toNat) = L := by
  induction L with
  | nil => rfl
  | cons a t ih =>
    have ha : 0 ≤ a := h a (List.mem_cons_self a t)
    have ht : asInts (t.map Int.toNat) = t := ih (fun x hx => h x (List.mem_cons_of_mem a hx))
    show ((a.toNat : Nat) : Int) :: asInts (t.map Int.toNat) = a :: t
    rw [ht, Int.toNat_of_nonneg ha]

theorem toNat_asInts (l : List Nat) : (asInts l).map Int.toNat = l := by
  induction l with
  | nil => rfl
  | cons a t ih =>
    show Int.toNat (a : Int) :: (asInts t).map Int.toNat = a :: t
    rw [ih, Int.toNat_natCast]

theorem perm_asInts_iff (g : Graph) (l : List Nat) :
    (asInts l).Perm ((List.range g.n).map (fun v : Nat => (v : Int))) ↔
      l.Perm (List.range g.n) := by
  constructor
  · intro h
    have := h.map Int.toNat
    rw [toNat_asInts] at this
    have e : ((List.range g.n).map (fun v : Nat => (v : Int))).map Int.toNat = List.range g.n :=
      toNat_asInts (List.range g.n)
    rwa [e] at this
  · intro h
    exact h.map _

theorem isTopologicalOrder_asInts (g : Graph) (l : List Nat) :
    IsTopologicalOrder g (asInts l) ↔ IsTopoList g l := by
  simp only [IsTopologicalOrder, IsTopoList, perm_asInts_iff, indexOf_asInts]

theorem IsTopologicalOrder.exists_list {g : Graph} {L : List Int}
    (h : IsTopologicalOrder g L) : ∃ l, L = asInts l ∧ IsTopoList g l := by
  have hnn : ∀ x ∈ L, 0 ≤ x := by
    intro x hx
    obtain ⟨v, _, rfl⟩ := List.mem_map.mp (h.1.subset hx)
    exact Int.natCast_nonneg v
  have e := asInts_toNat L hnn
  refine ⟨L.map Int.toNat, e.symm, ?_⟩
  rw [← isTopologicalOrder_asInts, e]
  exact h

/-- The orderings the enumerator emits are the topological orders of the
graph, each once. -/
theorem emitted_spec (g : Graph) (order0 : Nat → Int) :
    ∃ Ls, emitted g order0 = some Ls ∧ Ls.Nodup ∧ ∀ L, L ∈ Ls ↔ IsTopologicalOrder g L := by
  refine ⟨_, emitted_eq g order0, (nodup_extensions g g.n []).map asInts_injective, ?_⟩
  intro L
  constructor
  · intro hL
    obtain ⟨l, hl, rfl⟩ := List.mem_map.mp hL
    exact (isTopologicalOrder_asInts g l).mpr ((mem_extensions_root g l).mp hl)
  · intro hL
    obtain ⟨l, rfl, hl⟩ := hL.exists_list
    exact List.mem_map.mpr ⟨l, (mem_extensions_root g l).mpr hl, rfl⟩

/-! ## Acyclic graphs have a topological order -/

theorem exists_source (g : Graph) (hac : ¬ HasCycle g) (pre : List Nat)
    (hne : ∃ v, v < g.n ∧ v ∉ pre) :
    ∃ m, m < g.n ∧ m ∉ pre ∧ ∀ u, Edge g u m → u ∈ pre := by
  let r : Fin g.n → Fin g.n → Prop := fun a b => Relation.TransGen (Edge g) a.val b.val
  haveI : IsTrans (Fin g.n) r := ⟨fun _ _ _ h1 h2 => Relation.TransGen.trans h1 h2⟩
  haveI : IsIrrefl (Fin g.n) r := ⟨fun a h => hac ⟨a.val, h⟩⟩
  have wf : WellFounded r := Finite.wellFounded_of_trans_of_irrefl r
  obtain ⟨v, hv, hvp⟩ := hne
  obtain ⟨m, hm, hmin⟩ := wf.has_min {a : Fin g.n | a.val ∉ pre} ⟨⟨v, hv⟩, hvp⟩
  refine ⟨m.val, m.isLt, hm, ?_⟩
  intro u hu
  by_contra hup
  exact hmin ⟨u, hu.1⟩ hup (Relation.TransGen.single hu)

theorem extensions_ne_nil (g : Graph) (hac : ¬ HasCycle g) :
    ∀ (k : Nat) (pre : List Nat), pre.length + k = g.n → pre.Nodup → (∀ v ∈ pre, v < g.n) →
      extensions g k pre ≠ [] := by
  intro k
  induction k with
  | zero => intro pre _ _ _; simp [extensions]
  | succ k ih =>
    intro pre hlen hnd hlt
    have hne : ∃ v, v < g.n ∧ v ∉ pre := by
      by_contra hall
      push_neg at hall
      have hsub : List.range g.n ⊆ pre := fun v hv => hall v (List.mem_range.mp hv)
      have := (List.subperm_of_subset (List.nodup_range g.n) hsub).length_le
      rw [List.length_range] at this
      omega
    obtain ⟨m, hm, hmp, hpred⟩ := exists_source g hac pre hne
    have hnd1 : (pre ++ [m]).Nodup := by
      rw [List.nodup_append]
      refine ⟨hnd, List.nodup_singleton m, ?_⟩
      intro a ha hb
      rw [List.mem_singleton] at hb
      subst hb
      exact hmp ha
    have hlt1 : ∀ w ∈ pre ++ [m], w < g.n := by
      intro w hw
      rcases List.mem_append.mp hw with h1 | h1
      · exact hlt w h1
      · rw [List.mem_singleton] at h1; subst h1; exact hm
    have hsub := ih (pre ++ [m]) (by simp; omega) hnd1 hlt1
    obtain ⟨l, hl⟩ := List.exists_mem_of_ne_nil _ hsub
    intro hnil
    have hmem : l ∈ extensions g (k + 1) pre := by
      simp only [extensions, List.mem_flatMap, List.mem_range]
      refine ⟨m, hm, ?_⟩
      rw [extendWith_of_ok ⟨hmp, fun u hu ha => hpred u ⟨List.mem_range.mp hu, hm, ha⟩⟩]
      exact hl
    rw [hnil] at hmem
    exact List.not_mem_nil l hmem

/-! ## A graph that orders its vertices totally has one topological order -/

theorem IsTopoList.transGen_lt {g : Graph} {l : List Nat} (h : IsTopoList g l) {u v : Nat}
    (hp : Relation.TransGen (Edge g) u v) : l.indexOf u < l.indexOf v := by
  induction hp with
  | single he => exact h.2 _ _ he
  | tail _ he ih => exact lt_trans ih (h.2 _ _ he)

theorem IsTopoList.sorted {g : Graph} {l : List Nat} (h : IsTopoList g l)
    (htot : ∀ u v, u < g.n → v < g.n → u ≠ v →
      Relation.TransGen (Edge g) u v ∨ Relation.TransGen (Edge g) v u) :
    l.Sorted (Relation.TransGen (Edge g)) := by
  have hnd : l.Nodup := h.1.nodup_iff.mpr (List.nodup_range g.n)
  have hlt : ∀ v ∈ l, v < g.n := fun v hv => List.mem_range.mp (h.1.subset hv)
  rw [List.Sorted, List.pairwise_iff_get]
  intro i j hij
  have hne : l.get i ≠ l.get j := by
    intro e
    have := (hnd.get_inj_iff).mp e
    exact absurd this (Fin.ne_of_lt hij)
  rcases htot _ _ (hlt _ (List.get_mem l i.1 i.2)) (hlt _ (List.get_mem l j.1 j.2)) hne with h1 | h1
  · exact h1
  · have := h.transGen_lt h1
    rw [List.get_indexOf hnd, List.get_indexOf hnd] at this
    exact absurd this (not_lt_of_gt hij)

theorem isTopoList_unique (g : Graph) (hac : ¬ HasCycle g)
    (htot : ∀ u v, u < g.n → v < g.n → u ≠ v →
      Relation.TransGen (Edge g) u v ∨ Relation.TransGen (Edge g) v u)
    {l1 l2 : List Nat} (h1 : IsTopoList g l1) (h2 : IsTopoList g l2) : l1 = l2 := by
  haveI : IsAntisymm Nat (Relation.TransGen (Edge g)) :=
    ⟨fun a _ hab hba => absurd ⟨a, hab.trans hba⟩ hac⟩
  exact List.eq_of_perm_of_sorted (h1.1.trans h2.1.symm) (h1.sorted htot) (h2.sorted htot)

theorem eq_singleton_of_nodup {α : Type} {l : List α} (hne : l ≠ []) (hnd : l.Nodup)
    (hall : ∀ a ∈ l, ∀ b ∈ l, a = b) : ∃ a, l = [a] := by
  match l, hne, hnd, hall with
  | [a], _, _, _ => exact ⟨a, rfl⟩
  | a :: b :: t, _, hnd, hall =>
    have hab : a = b := hall a (by simp) b (by simp)
    subst hab
    simp at hnd

/-! ## Reading the result of `detectCycle` on a given graph -/

theorem hasCycle_of_detect (g : Graph) (st : CycleState)
    (h : detectCycleResult g st = some 1) : HasCycle g := by
  obtain ⟨r, st', hd, hr⟩ := detectCycle_spec g st
  simp only [detectCycleResult, hd, Option.map_some', Option.some.injEq] at h
  rcases hr with ⟨_, hc⟩ | ⟨h0, _⟩
  · exact hc
  · rw [h0] at h; exact absurd h (by decide)

theorem not_hasCycle_of_detect (g : Graph) (st : CycleState)
    (h : detectCycleResult g st = some 0) : ¬ HasCycle g := by
  obtain ⟨r, st', hd, hr⟩ := detectCycle_spec g st
  simp only [detectCycleResult, hd, Option.map_some', Option.some.injEq] at h
  rcases hr with ⟨h1, _⟩ | ⟨_, hc⟩
  · rw [h1] at h; exact absurd h (by decide)
  · exact hc

theorem LexBefore.asInts_of_prefix {pre s t : List Nat} {v w : Nat} (h : v < w) :
    LexBefore (asInts (pre ++ v :: s)) (asInts (pre ++ w :: t)) := by
  refine ⟨asInts pre, (v : Int), (w : Int), asInts s, asInts t, ?_, ?_, ?_⟩
  · simp [asInts]
  · simp [asInts]
  · exact_mod_cast h

theorem pairwise_lex_extensions (g : Graph) :
    ∀ (k : Nat) (pre : List Nat),
      (extensions g k pre).Pairwise (fun a b => LexBefore (asInts a) (asInts b)) := by
  intro k
  induction k with
  | zero => intro pre; simp [extensions]
  | succ k ih =>
    intro pre
    simp only [extensions]
    rw [List.pairwise_flatMap]
    have hmem : ∀ (x : Nat) (l : List Nat), l ∈ extendWith g pre (extensions g k) x →
        ∃ suf, l = pre ++ x :: suf := by
      intro x l hl
      by_cases hc : x ∉ pre ∧ ∀ u ∈ List.range g.n, g.adjacencyMatrix u x = 1 → u ∈ pre
      · rw [extendWith_of_ok hc, mem_extensions] at hl
        obtain ⟨suf, h1, _, _⟩ := hl
        exact ⟨suf, by simp [h1]⟩
      · rw [extendWith_of_not hc] at hl
        exact absurd hl (List.not_mem_nil l)
    constructor
    · intro v _
      by_cases hc : v ∉ pre ∧ ∀ u ∈ List.range g.n, g.adjacencyMatrix u v = 1 → u ∈ pre
      · rw [extendWith_of_ok hc]; exact ih _
      · rw [extendWith_of_not hc]; exact List.Pairwise.nil
    · refine (List.pairwise_lt_range g.n).imp ?_
      intro v w hvw a ha b hb
      obtain ⟨s, rfl⟩ := hmem v a ha
      obtain ⟨t, rfl⟩ := hmem w b hb
      exact LexBefore.asInts_of_prefix hvw

/-! ## A graph with a cycle has no topological order -/

theorem placeLoopLog_fst (g : Graph) (call : EnumState → Option (EnumState × List CallRecord))
    (call0 : EnumState → Option EnumState) (position : Nat)
    (h : ∀ st, (call st).map Prod.fst = call0 st) :
    ∀ (cs : List Nat) (st : EnumState),
      (placeLoopLog g call position cs st).map Prod.fst = placeLoop g call0 position cs st := by
  intro cs
  induction cs with
  | nil => intro st; rfl
  | cons v rest ih =>
    intro st
    simp only [placeLoopLog, placeLoop]
    by_cases hvis : st.visited v ≠ 0
    · rw [if_pos hvis, if_pos hvis]; exact ih st
    · rw [if_neg hvis, if_neg hvis]
      by_cases hcan : canPlace g st.visited v (List.range g.n) ≠ 0
      · rw [if_pos hcan, if_pos hcan, ← h]
        cases hc : call { st with currentOrder := setAt st.currentOrder position v
                                  visited := setAt st.visited v 1 } with
        | none => rfl
        | some res =>
          obtain ⟨st1, below⟩ := res
          simp only [Option.map_some']
          rw [← ih]
          cases placeLoopLog g call position rest { st1 with visited := setAt st1.visited v 0 } with
          | none => rfl
          | some res2 => rfl
      · rw [if_neg hcan, if_neg hcan]; exact ih st

theorem findAllTopologicalOrdersLog_fst (g : Graph) :
    ∀ (fuel position : Nat) (st : EnumState),
      (findAllTopologicalOrdersLog g fuel position st).map Prod.fst =
        findAllTopologicalOrders g fuel position st := by
  intro fuel
  induction fuel with
  | zero => intro position st; rfl
  | succ f ih =>
    intro position st
    simp only [findAllTopologicalOrdersLog, findAllTopologicalOrders]
    by_cases hn : position = g.n
    · rw [if_pos hn, if_pos hn]; rfl
    · rw [if_neg hn, if_neg hn,
        ← placeLoopLog_fst g _ _ position (ih (position + 1)) (List.range g.n) st]
      cases placeLoopLog g (findAllTopologicalOrdersLog g f (position + 1)) position
          (List.range g.n) st with
      | none => rfl
      | some res => rfl

theorem findAllTopologicalOrdersLog_of_some (g : Graph) {fuel position : Nat}
    {st st' : EnumState} (h : findAllTopologicalOrders g fuel position st = some st') :
    ∃ log, findAllTopologicalOrdersLog g fuel position st = some (st', log) := by
  have e := findAllTopologicalOrdersLog_fst g fuel position st
  rw [h] at e
  cases hc : findAllTopologicalOrdersLog g fuel position st with
  | none => rw [hc] at e; exact absurd e (by simp)
  | some res =>
    obtain ⟨a, log⟩ := res
    rw [hc] at e
    simp only [Option.map_some', Option.some.injEq] at e
    exact ⟨log, by rw [e]⟩

/-! ## Backtracking restores the state, from any state -/

theorem placeLoop_frame (g : Graph) (call : EnumState → Option EnumState) (position : Nat)
    (hcall : ∀ st, ∃ st', call st = some st' ∧ st'.visited = st.visited ∧
      ∀ j, j < position + 1 → st'.currentOrder j = st.currentOrder j) :
    ∀ (cs : List Nat) (st : EnumState),
      ∃ st', placeLoop g call position cs st = some st' ∧ st'.visited = st.visited ∧
        ∀ j, j < position → st'.currentOrder j = st.currentOrder j := by
  intro cs
  induction cs with
  | nil => intro st; exact ⟨st, rfl, rfl, fun _ _ => rfl⟩
  | cons v rest ih =>
    intro st
    simp only [placeLoop]
    by_cases hvis : st.visited v ≠ 0
    · rw [if_pos hvis]; exact ih st
    · rw [if_neg hvis]
      by_cases hcan : canPlace g st.visited v (List.range g.n) ≠ 0
      · rw [if_pos hcan]
        obtain ⟨st1, hst1, hv1, ho1⟩ := hcall
          { st with currentOrder := setAt st.currentOrder position v
                    visited := setAt st.visited v 1 }
        rw [hst1]
        obtain ⟨st2, hst2, hv2, ho2⟩ := ih { st1 with visited := setAt st1.visited v 0 }
        refine ⟨st2, hst2, ?_, ?_⟩
        · rw [hv2]
          funext u
          show setAt st1.visited v 0 u = st.visited u
          rw [hv1]
          by_cases huv : u = v
          · subst huv; rw [setAt_same, not_not.mp hvis]
          · rw [setAt_other _ _ _ _ huv]; exact setAt_other _ _ _ _ huv
        · intro j hj
          rw [ho2 j hj]
          show st1.currentOrder j = st.currentOrder j
          rw [ho1 j (Nat.lt_succ_of_lt hj)]
          exact setAt_other _ _ _ _ (Nat.ne_of_lt hj)
      · rw [if_neg hcan]; exact ih st

theorem findAllTopologicalOrders_frame (g : Graph) :
    ∀ (k fuel position : Nat) (st : EnumState), position + k = g.n → k < fuel →
      ∃ st', findAllTopologicalOrders g fuel position st = some st' ∧
        st'.visited = st.visited ∧
        ∀ j, j < position → st'.currentOrder j = st.currentOrder j := by
  intro k
  induction k with
  | zero =>
    intro fuel position st hk hfuel
    obtain ⟨f, rfl⟩ : ∃ f, fuel = f + 1 := ⟨fuel - 1, by omega⟩
    have hn : position = g.n := by omega
    simp only [findAllTopologicalOrders, if_pos hn]
    exact ⟨_, rfl, rfl, fun _ _ => rfl⟩
  | succ k ih =>
    intro fuel position st hk hfuel
    obtain ⟨f, rfl⟩ : ∃ f, fuel = f + 1 := ⟨fuel - 1, by omega⟩
    have hn : position ≠ g.n := by omega
    simp only [findAllTopologicalOrders, if_neg hn]
    exact placeLoop_frame g _ position
      (fun st1 => ih f (position + 1) st1 (by omega) (by omega)) (List.range g.n) st

/-! ## Positions and numbers of calls in the recorded search -/

theorem placeLoopLog_bounds (g : Graph) (call : EnumState → Option (EnumState × List CallRecord))
    (position : Nat) (P : CallRecord → Prop)
    (hcall : ∀ st st' log, call st = some (st', log) → ∀ r ∈ log, P r) :
    ∀ (cs : List Nat) (st st' : EnumState) (k : Nat) (log : List CallRecord),
      placeLoopLog g call position cs st = some (st', k, log) →
      k ≤ cs.length ∧ ∀ r ∈ log, P r := by
  intro cs
  induction cs with
  | nil =>
    intro st st' k log h
    simp only [placeLoopLog, Option.some.injEq, Prod.mk.injEq] at h
    obtain ⟨_, rfl, rfl⟩ := h
    exact ⟨Nat.le_refl _, fun r hr => absurd hr (List.not_mem_nil r)⟩
  | cons v rest ih =>
    intro st st' k log h
    simp only [placeLoopLog] at h
    by_cases hvis : st.visited v ≠ 0
    · rw [if_pos hvis] at h
      obtain ⟨h1, h2⟩ := ih st st' k log h
      exact ⟨Nat.le_succ_of_le h1, h2⟩
    · rw [if_neg hvis] at h
      by_cases hcan : canPlace g st.visited v (List.range g.n) ≠ 0
      · rw [if_pos hcan] at h
        cases hc : call { st with currentOrder := setAt st.currentOrder position v
                                  visited := setAt st.visited v 1 } with
        | none => rw [hc] at h; exact absurd h (by simp)
        | some res =>
          obtain ⟨st1, below⟩ := res
          rw [hc] at h
          dsimp only at h
          cases hl : placeLoopLog g call position rest
              { st1 with visited := setAt st1.visited v 0 } with
          | none => rw [hl] at h; exact absurd h (by simp)
          | some res2 =>
            obtain ⟨st2, k2, later⟩ := res2
            rw [hl] at h
            simp only [Option.some.injEq, Prod.mk.injEq] at h
            obtain ⟨_, rfl, rfl⟩ := h
            obtain ⟨h1, h2⟩ := ih _ _ _ _ hl
            refine ⟨Nat.succ_le_succ h1, ?_⟩
            intro r hr
            rcases List.mem_append.mp hr with hr | hr
            · exact hcall _ _ _ hc r hr
            · exact h2 r hr
      · rw [if_neg hcan] at h
        obtain ⟨h1, h2⟩ := ih st st' k log h
        exact ⟨Nat.le_succ_of_le h1, h2⟩

theorem findAllTopologicalOrdersLog_bounds (g : Graph) :
    ∀ (fuel position : Nat) (st st' : EnumState) (log : List CallRecord), position ≤ g.n →
      findAllTopologicalOrdersLog g fuel position st = some (st', log) →
      ∃ first below, log = first :: below ∧ first.position = position ∧ first.entry = st ∧
        first.calls ≤ g.n ∧ (0 < first.calls → position < g.n) ∧
        ∀ r ∈ below, position + 1 ≤ r.position ∧ r.position ≤ g.n ∧ r.calls ≤ g.n ∧
          (0 < r.calls → r.position < g.n) := by
  intro fuel
  induction fuel with
  | zero =>
    intro position st st' log _ h
    simp [findAllTopologicalOrdersLog] at h
  | succ f ih =>
    intro position st st' log hp h
    simp only [findAllTopologicalOrdersLog] at h
    by_cases hn : position = g.n
    · rw [if_pos hn] at h
      simp only [Option.some.injEq, Prod.mk.injEq] at h
      obtain ⟨_, rfl⟩ := h
      exact ⟨_, [], rfl, rfl, rfl, Nat.zero_le _, fun h0 => absurd h0 (Nat.lt_irrefl 0),
        fun r hr => absurd hr (List.not_mem_nil r)⟩
    · rw [if_neg hn] at h
      have hlt : position < g.n := lt_of_le_of_ne hp hn
      cases hl : placeLoopLog g (findAllTopologicalOrdersLog g f (position + 1)) position
          (List.range g.n) st with
      | none => rw [hl] at h; exact absurd h (by simp)
      | some res =>
        obtain ⟨st1, k, below⟩ := res
        rw [hl] at h
        simp only [Option.some.injEq, Prod.mk.injEq] at h
        obtain ⟨_, rfl⟩ := h
        obtain ⟨hk, hbelow⟩ := placeLoopLog_bounds g _ position
          (fun r => position + 1 ≤ r.position ∧ r.position ≤ g.n ∧ r.calls ≤ g.n ∧
            (0 < r.calls → r.position < g.n))
          (by
            intro s s' lg hs r hr
            obtain ⟨first, bl, rfl, h1, _, h3, h4, h5⟩ := ih (position + 1) s s' lg hlt hs
            rcases List.mem_cons.mp hr with hr | hr
            · subst hr
              exact ⟨by omega, by omega, h3, fun h0 => by have := h4 h0; omega⟩
            · obtain ⟨a, b, c, d⟩ := h5 r hr
              exact ⟨by omega, b, c, d⟩)
          _ _ _ _ _ hl
        rw [List.length_range] at hk
        exact ⟨_, below, rfl, rfl, rfl, hk, fun _ => hlt, hbelow⟩

/-! ## The state at the entry of every call -/

theorem Placeable.append {g : Graph} :
    ∀ (s p : List Nat) (v : Nat), Placeable g p s → v < g.n → v ∉ p ++ s →
      (∀ u, u < g.n → g.adjacencyMatrix u v = 1 → u ∈ p ++ s) → Placeable g p (s ++ [v]) := by
  intro s
  induction s with
  | nil =>
    intro p v _ hv hnot hpred
    exact ⟨hv, by simpa using hnot, by simpa using hpred, trivial⟩
  | cons w s ih =>
    intro p v hp hv hnot hpred
    obtain ⟨hw, hwn, hwp, hrest⟩ := hp
    refine ⟨hw, hwn, hwp, ih (p ++ [w]) v hrest hv ?_ ?_⟩
    · simpa using hnot
    · simpa using hpred

theorem EntryInv.extend {g : Graph} {pre : List Nat} {st : EnumState} (h : EntryInv g pre st)
    {v : Nat} (hv : v < g.n) (hvis : ¬ st.visited v ≠ 0)
    (hcan : canPlace g st.visited v (List.range g.n) ≠ 0) :
    EntryInv g (pre ++ [v])
      { st with currentOrder := setAt st.currentOrder pre.length v
                visited := setAt st.visited v 1 } := by
  have hnot : v ∉ pre := fun hm => hvis ((h.placed.visited v hv).mpr hm)
  have hok := (h.placed.canPlace_iff v).mp hcan
  refine ⟨h.placed.place hv hnot, ?_, ?_⟩
  · apply Placeable.append pre [] v h.closed hv (by simpa using hnot)
    intro u hu ha
    simpa using hok u (List.mem_range.mpr hu) ha
  · intro u hu
    by_cases huv : u = v
    · subst huv; exact Or.inr (setAt_same _ _ _)
    · show setAt st.visited v 1 u = 0 ∨ setAt st.visited v 1 u = 1
      rw [setAt_other _ _ _ _ huv]; exact h.binary u hu

theorem EntryInv.restore {g : Graph} {pre : List Nat} {st st' : EnumState}
    (h : EntryInv g pre st) (hv : st'.visited = st.visited)
    (ho : ∀ j, j < pre.length → st'.currentOrder j = st.currentOrder j) : EntryInv g pre st' :=
  ⟨h.placed.of_post hv ho, h.closed, fun u hu => by rw [hv]; exact h.binary u hu⟩

theorem placeLoopLog_entries (g : Graph) (pre : List Nat)
    (call : EnumState → Option (EnumState × List CallRecord))
    (call0 : EnumState → Option EnumState) (Q : CallRecord → Prop)
    (hfst : ∀ st, (call st).map Prod.fst = call0 st)
    (hframe : ∀ st, ∃ st', call0 st = some st' ∧ st'.visited = st.visited ∧
      ∀ j, j < pre.length + 1 → st'.currentOrder j = st.currentOrder j)
    (hcall : ∀ v st st' log, EntryInv g (pre ++ [v]) st → call st = some (st', log) →
      ∀ r ∈ log, Q r) :
    ∀ (cs : List Nat) (st st' : EnumState) (k : Nat) (log : List CallRecord),
      (∀ v ∈ cs, v < g.n) → EntryInv g pre st →
      placeLoopLog g call pre.length cs st = some (st', k, log) → ∀ r ∈ log, Q r := by
  intro cs
  induction cs with
  | nil =>
    intro st st' k log _ _ h
    simp only [placeLoopLog, Option.some.injEq, Prod.mk.injEq] at h
    obtain ⟨_, _, rfl⟩ := h
    exact fun r hr => absurd hr (List.not_mem_nil r)
  | cons v rest ih =>
    intro st st' k log hcs hinv h
    have hv : v < g.n := hcs v (List.mem_cons_self v rest)
    have hrest : ∀ w ∈ rest, w < g.n := fun w hw => hcs w (List.mem_cons_of_mem v hw)
    simp only [placeLoopLog] at h
    by_cases hvis : st.visited v ≠ 0
    · rw [if_pos hvis] at h
      exact ih st st' k log hrest hinv h
    · rw [if_neg hvis] at h
      by_cases hcan : canPlace g st.visited v (List.range g.n) ≠ 0
      · rw [if_pos hcan] at h
        cases hc : call { st with currentOrder := setAt st.currentOrder pre.length v
                                  visited := setAt st.visited v 1 } with
        | none => rw [hc] at h; exact absurd h (by simp)
        | some res =>
          obtain ⟨st1, below⟩ := res
          rw [hc] at h
          dsimp only at h
          cases hl : placeLoopLog g call pre.length rest
              { st1 with visited := setAt st1.visited v 0 } with
          | none => rw [hl] at h; exact absurd h (by simp)
          | some res2 =>
            obtain ⟨st2, k2, later⟩ := res2
            rw [hl] at h
            simp only [Option.some.injEq, Prod.mk.injEq] at h
            obtain ⟨_, _, rfl⟩ := h
            have hsub := hinv.extend hv hvis hcan
            obtain ⟨st1', h0, hv1, ho1⟩ := hframe
              { st with currentOrder := setAt st.currentOrder pre.length v
                        visited := setAt st.visited v 1 }
            have e := hfst { st with currentOrder := setAt st.currentOrder pre.length v
                                     visited := setAt st.visited v 1 }
            rw [hc, h0] at e
            simp only [Option.map_some', Option.some.injEq] at e
            subst e
            have hback : EntryInv g pre { st1 with visited := setAt st1.visited v 0 } := by
              apply hinv.restore
              · funext u
                show setAt st1.visited v 0 u = st.visited u
                rw [hv1]
                by_cases huv : u = v
                · subst huv; rw [setAt_same, not_not.mp hvis]
                · rw [setAt_other _ _ _ _ huv]; exact setAt_other _ _ _ _ huv
              · intro j hj
                show st1.currentOrder j = st.currentOrder j
                rw [ho1 j (Nat.lt_succ_of_lt hj)]
                exact setAt_other _ _ _ _ (Nat.ne_of_lt hj)
            intro r hr
            rcases List.mem_append.mp hr with hr | hr
            · exact hcall v _ _ _ hsub hc r hr
            · exact ih _ _ _ _ hrest hback hl r hr
      · rw [if_neg hcan] at h
        exact ih st st' k log hrest hinv h

theorem findAllTopologicalOrdersLog_entries (g : Graph) :
    ∀ (k fuel : Nat) (pre : List Nat) (st st' : EnumState) (log : List CallRecord),
      pre.length + k = g.n → k < fuel → EntryInv g pre st →
      findAllTopologicalOrdersLog g fuel pre.length st = some (st', log) →
      ∀ r ∈ log, ∃ pre', pre'.length = r.position ∧ EntryInv g pre' r.entry := by
  intro k
  induction k with
  | zero =>
    intro fuel pre st st' log hlen hfuel hinv h
    obtain ⟨f, rfl⟩ : ∃ f, fuel = f + 1 := ⟨fuel - 1, by omega⟩
    have hn : pre.length = g.n := by omega
    simp only [findAllTopologicalOrdersLog, if_pos hn, Option.some.injEq, Prod.mk.injEq] at h
    obtain ⟨_, rfl⟩ := h
    intro r hr
    rw [List.mem_singleton] at hr
    subst hr
    exact ⟨pre, rfl, hinv⟩
  | succ k ih =>
    intro fuel pre st st' log hlen hfuel hinv h
    obtain ⟨f, rfl⟩ : ∃ f, fuel = f + 1 := ⟨fuel - 1, by omega⟩
    have hn : pre.length ≠ g.n := by omega
    simp only [findAllTopologicalOrdersLog, if_neg hn] at h
    cases hl : placeLoopLog g (findAllTopologicalOrdersLog g f (pre.length + 1)) pre.length
        (List.range g.n) st with
    | none => rw [hl] at h; exact absurd h (by simp)
    | some res =>
      obtain ⟨st1, c, below⟩ := res
      rw [hl] at h
      simp only [Option.some.injEq, Prod.mk.injEq] at h
      obtain ⟨_, rfl⟩ := h
      intro r hr
      rcases List.mem_cons.mp hr with hr | hr
      · subst hr
        exact ⟨pre, rfl, hinv⟩
      · refine placeLoopLog_entries g pre _ (findAllTopologicalOrders g f (pre.length + 1))
          (fun r => ∃ pre', pre'.length = r.position ∧ EntryInv g pre' r.entry)
          (findAllTopologicalOrdersLog_fst g f (pre.length + 1))
          (fun s => findAllTopologicalOrders_frame g k f (pre.length + 1) s (by omega) (by omega))
          ?_ (List.range g.n) st st1 c below (fun v hv => List.mem_range.mp hv) hinv hl r hr
        intro v s s' lg hs hcall
        have hlen' : (pre ++ [v]).length = pre.length + 1 := by simp
        rw [← hlen'] at hcall
        exact ih f (pre ++ [v]) s s' lg (by rw [hlen']; omega) (by omega) hs hcall

theorem Placed.order_get {g : Graph} {pre : List Nat} {st : EnumState} (h : Placed g pre st)
    (i : Nat) (hi : i < pre.length) : st.currentOrder i = ((pre.get ⟨i, hi⟩ : Nat) : Int) := by
  have e := congrArg (fun l => l[i]?) h.order
  simp only [asInts, List.getElem?_map, List.getElem?_range hi, Option.map_some',
    List.getElem?_eq_getElem hi] at e
  simpa using e

theorem EntryInv.explicit {g : Graph} {pre : List Nat} {st : EnumState}
    (h : EntryInv g pre st) :
    (∀ v, v < g.n → (st.visited v = 1 ↔ ∃ i, i < pre.length ∧ st.currentOrder i = (v : Int))) ∧
    (∀ i j, i < j → j < pre.length → st.currentOrder i ≠ st.currentOrder j) ∧
    (∀ i, i < pre.length → ∀ p w, Edge g p w → st.currentOrder i = (w : Int) →
      ∃ k, k < i ∧ st.currentOrder k = (p : Int)) := by
  have hnd := h.placed.nodup
  refine ⟨?_, ?_, ?_⟩
  · intro v hv
    constructor
    · intro h1
      have hm : v ∈ pre := (h.placed.visited v hv).mp (by rw [h1]; decide)
      obtain ⟨i, hi⟩ := List.mem_iff_get.mp hm
      exact ⟨i.1, i.2, by rw [h.placed.order_get i.1 i.2, hi]⟩
    · rintro ⟨i, hi, hc⟩
      rw [h.placed.order_get i hi] at hc
      have hm : v ∈ pre := by
        have := Nat.cast_injective hc
        rw [← this]
        exact List.get_mem pre i hi
      rcases h.binary v hv with h0 | h1
      · exact absurd h0 ((h.placed.visited v hv).mpr hm)
      · exact h1
  · intro i j hij hj he
    rw [h.placed.order_get i (lt_trans hij hj), h.placed.order_get j hj] at he
    have := (hnd.get_inj_iff).mp (Nat.cast_injective he)
    have : i = j := congrArg Fin.val this
    omega
  · intro i hi p w he hc
    rw [h.placed.order_get i hi] at hc
    have hw : pre.get ⟨i, hi⟩ = w := Nat.cast_injective hc
    have hmem : w ∈ pre := by rw [← hw]; exact List.get_mem pre i hi
    have hlt := Placeable.before pre [] h.closed
      (fun _ v _ hv => absurd hv (List.not_mem_nil v)) p w he (by simpa using hmem)
    simp only [List.nil_append] at hlt
    have hidx : pre.indexOf w = i := by
      rw [← hw]
      exact List.get_indexOf hnd ⟨i, hi⟩
    rw [hidx] at hlt
    refine ⟨pre.indexOf p, hlt, ?_⟩
    have hp : pre.indexOf p < pre.length := lt_trans hlt hi
    rw [h.placed.order_get _ hp, List.indexOf_get hp]

/-! ## What `readGraph` reads -/

theorem getD_drop_add (l : List Int) : ∀ (n k : Nat), (l.drop n).getD k 0 = l.getD (n + k) 0 := by
  induction l with
  | nil => intro n k; simp
  | cons x xs ih =>
    intro n k
    cases n with
    | zero => simp
    | succ n =>
      have e : n + 1 + k = (n + k) + 1 := by omega
      rw [List.drop_succ_cons, ih, e, List.getD_cons_succ]

theorem readRow_ok (i : Nat) :
    ∀ (len s : Nat) (input : List Int) (m : Nat → Nat → Int), len ≤ input.length →
      ∃ m', readRow i (List.range' s len) input m = (true, input.drop len, m') ∧
        ∀ a b, m' a b =
          if a = i ∧ s ≤ b ∧ b < s + len then input.getD (b - s) 0 else m a b := by
  intro len
  induction len with
  | zero =>
    intro s input m _
    refine ⟨m, rfl, ?_⟩
    intro a b
    have : ¬ (a = i ∧ s ≤ b ∧ b < s + 0) := by omega
    rw [if_neg this]
  | succ len ih =>
    intro s input m hlen
    cases input with
    | nil => simp at hlen
    | cons x xs =>
      obtain ⟨m', h1, h2⟩ := ih (s + 1) xs (setEntry m i s x) (by simpa using hlen)
      refine ⟨m', ?_, ?_⟩
      · rw [List.range'_succ]
        simp only [readRow, List.drop_succ_cons]
        exact h1
      · intro a b
        rw [h2]
        by_cases hc : a = i ∧ s + 1 ≤ b ∧ b < s + 1 + len
        · have hc' : a = i ∧ s ≤ b ∧ b < s + (len + 1) := ⟨hc.1, by omega, by omega⟩
          rw [if_pos hc, if_pos hc']
          have e : b - s = (b - (s + 1)) + 1 := by omega
          rw [e, List.getD_cons_succ]
        · rw [if_neg hc]
          by_cases hb : a = i ∧ b = s
          · have hc' : a = i ∧ s ≤ b ∧ b < s + (len + 1) := ⟨hb.1, by omega, by omega⟩
            rw [if_pos hc']
            simp only [setEntry, if_pos hb]
            rw [hb.2, Nat.sub_self, List.getD_cons_zero]
          · have hc' : ¬ (a = i ∧ s ≤ b ∧ b < s + (len + 1)) := by
              rintro ⟨h1, h2, h3⟩
              by_cases hbs : b = s
              · exact hb ⟨h1, hbs⟩
              · exact hc ⟨h1, by omega, by omega⟩
            rw [if_neg hc']
            simp only [setEntry, if_neg hb]

theorem readRow_fail (i : Nat) :
    ∀ (len s : Nat) (input : List Int) (m : Nat → Nat → Int), input.length < len →
      (readRow i (List.range' s len) input m).1 = false := by
  intro len
  induction len with
  | zero => intro s input m h; exact absurd h (Nat.not_lt_zero _)
  | succ len ih =>
    intro s input m hlen
    rw [List.range'_succ]
    cases input with
    | nil => rfl
    | cons x xs =>
      simp only [readRow]
      exact ih (s + 1) xs _ (by simpa using hlen)

theorem readRows_ok (n : Nat) :
    ∀ (len s : Nat) (input : List Int) (m : Nat → Nat → Int), len * n ≤ input.length →
      ∃ m', readRows n (List.range' s len) input m = (true, input.drop (len * n), m') ∧
        ∀ a b, m' a b =
          if s ≤ a ∧ a < s + len ∧ b < n then input.getD ((a - s) * n + b) 0 else m a b := by
  intro len
  induction len with
  | zero =>
    intro s input m _
    refine ⟨m, by simp [readRows], ?_⟩
    intro a b
    have : ¬ (s ≤ a ∧ a < s + 0 ∧ b < n) := by omega
    rw [if_neg this]
  | succ len ih =>
    intro s input m hlen
    have hmul : (len + 1) * n = n + len * n := by ring
    have hn : n ≤ input.length := by omega
    obtain ⟨m1, h1, h2⟩ := readRow_ok s n 0 input m hn
    rw [← List.range_eq_range'] at h1
    obtain ⟨m', h3, h4⟩ := ih (s + 1) (input.drop n) m1 (by rw [List.length_drop]; omega)
    refine ⟨m', ?_, ?_⟩
    · rw [List.range'_succ]
      simp only [readRows, h1]
      rw [h3, List.drop_drop, hmul]
    · intro a b
      rw [h4]
      by_cases hc : s + 1 ≤ a ∧ a < s + 1 + len ∧ b < n
      · have hc' : s ≤ a ∧ a < s + (len + 1) ∧ b < n := ⟨by omega, by omega, hc.2.2⟩
        rw [if_pos hc, if_pos hc', getD_drop_add]
        congr 1
        obtain ⟨d, hd⟩ : ∃ d, a = s + 1 + d := ⟨a - (s + 1), by omega⟩
        subst hd
        have e1 : s + 1 + d - (s + 1) = d := by omega
        have e2 : s + 1 + d - s = d + 1 := by omega
        rw [e1, e2]
        ring
      · rw [if_neg hc, h2]
        by_cases ha : a = s ∧ b < n
        · have hc' : s ≤ a ∧ a < s + (len + 1) ∧ b < n := ⟨by omega, by omega, ha.2⟩
          have hr : a = s ∧ 0 ≤ b ∧ b < 0 + n := ⟨ha.1, Nat.zero_le _, by omega⟩
          rw [if_pos hc', if_pos hr, ha.1, Nat.sub_self, Nat.zero_mul, Nat.zero_add,
            Nat.sub_zero]
        · have hc' : ¬ (s ≤ a ∧ a < s + (len + 1) ∧ b < n) := by
            rintro ⟨h5, h6, h7⟩
            by_cases has : a = s
            · exact ha ⟨has, h7⟩
            · exact hc ⟨by omega, by omega, h7⟩
          have hr : ¬ (a = s ∧ 0 ≤ b ∧ b < 0 + n) := by
            rintro ⟨h5, _, h7⟩
            exact ha ⟨h5, by omega⟩
          rw [if_neg hc', if_neg hr]

theorem readRows_fail (n : Nat) :
    ∀ (len s : Nat) (input : List Int) (m : Nat → Nat → Int), input.length < len * n →
      (readRows n (List.range' s len) input m).1 = false := by
  intro len
  induction len with
  | zero => intro s input m h; simp at h
  | succ len ih =>
    intro s input m hlen
    have hmul : (len + 1) * n = n + len * n := by ring
    rw [List.range'_succ]
    simp only [readRows]
    by_cases hn : n ≤ input.length
    · obtain ⟨m1, h1, _⟩ := readRow_ok s n 0 input m hn
      rw [← List.range_eq_range'] at h1
      rw [h1]
      exact ih (s + 1) (input.drop n) m1 (by rw [List.length_drop]; omega)
    · have hf := readRow_fail s n 0 input m (by omega)
      rw [← List.range_eq_range'] at hf
      cases hr : readRow s (List.range n) input m with
      | mk ok restm =>
        obtain ⟨input1, m1⟩ := restm
        rw [hr] at hf
        simp only at hf
        subst hf
        rfl

/-! ## The recorded cycle detection -/

theorem dfsLoopLog_state (g : Graph) (call : Nat → CycleTrace → Option CycleTrace)
    (call0 : Nat → CycleState → Option CycleState) (v : Nat)
    (h : ∀ i t, (call i t).map CycleTrace.state = call0 i t.state) :
    ∀ (l : List Nat) (t : CycleTrace),
      (dfsLoopLog g call v l t).map CycleTrace.state = dfsLoop g call0 v l t.state := by
  intro l
  induction l with
  | nil => intro t; rfl
  | cons i rest ih =>
    intro t
    simp only [dfsLoopLog, dfsLoop]
    by_cases hadj : g.adjacencyMatrix v i = 1
    · rw [if_pos hadj, if_pos hadj]
      by_cases hig : t.color i = GRAY
      · rw [if_pos hig, if_pos (show t.state.color i = GRAY from hig)]; rfl
      · rw [if_neg hig, if_neg (show ¬ t.state.color i = GRAY from hig)]
        by_cases hiw : t.color i = WHITE
        · rw [if_pos hiw, if_pos (show t.state.color i = WHITE from hiw)]
          have e := h i { t with
            events := t.events ++ [DfsEvent.successor v i (t.color i) false] }
          change _ = call0 i t.state at e
          rw [← e]
          cases call i { t with
              events := t.events ++ [DfsEvent.successor v i (t.color i) false] } with
          | none => rfl
          | some t1 =>
            simp only [Option.map_some']
            by_cases hc : t1.hasCycle ≠ 0
            · rw [if_pos hc, if_pos (show t1.state.hasCycle ≠ 0 from hc)]; rfl
            · rw [if_neg hc, if_neg (show ¬ t1.state.hasCycle ≠ 0 from hc)]; exact ih t1
        · rw [if_neg hiw, if_neg (show ¬ t.state.color i = WHITE from hiw)]
          exact ih _
    · rw [if_neg hadj, if_neg hadj]; exact ih t

theorem dfsLog_state (g : Graph) :
    ∀ (f v : Nat) (t : CycleTrace),
      (dfsLog g f v t).map CycleTrace.state = dfs g f v t.state := by
  intro f
  induction f with
  | zero => intro v t; rfl
  | succ f ih =>
    intro v t
    simp only [dfsLog, dfs]
    exact dfsLoopLog_state g (dfsLog g f) (dfs g f) v ih (List.range g.n) _

theorem detectLoopLog_state (g : Graph) :
    ∀ (l : List Nat) (t : CycleTrace),
      (detectLoopLog g l t).map (fun p => (p.1, p.2.state)) = detectLoop g l t.state := by
  intro l
  induction l with
  | nil => intro t; rfl
  | cons i rest ih =>
    intro t
    simp only [detectLoopLog, detectLoop]
    by_cases hiw : t.color i = WHITE
    · rw [if_pos hiw, if_pos (show t.state.color i = WHITE from hiw), ← dfsLog_state]
      cases dfsLog g g.n i t with
      | none => rfl
      | some t1 =>
        simp only [Option.map_some']
        by_cases hc : t1.hasCycle ≠ 0
        · rw [if_pos hc, if_pos (show t1.state.hasCycle ≠ 0 from hc)]; rfl
        · rw [if_neg hc, if_neg (show ¬ t1.state.hasCycle ≠ 0 from hc)]; exact ih t1
    · rw [if_neg hiw, if_neg (show ¬ t.state.color i = WHITE from hiw)]; exact ih t

theorem detectCycleLog_state (g : Graph) (st : CycleState) :
    (detectCycleLog g st).map (fun p => (p.1, p.2.state)) = detectCycle g st :=
  detectLoopLog_state g (List.range g.n) _

theorem dfsLoopLog_spec (g : Graph) (f : Nat) (call : Nat → CycleTrace → Option CycleTrace)
    (v : Nat)
    (hcall : ∀ i t, i < g.n → t.color i = WHITE → t.hasCycle = 0 →
      (whiteSet g t.color).card ≤ f → ∃ t', call i t = some t' ∧ DfsLogPost i t t') :
    ∀ (l : List Nat) (t : CycleTrace), (∀ i ∈ l, i < g.n) → t.hasCycle = 0 →
      t.color v = GRAY → (whiteSet g t.color).card ≤ f →
      ∃ t' new, dfsLoopLog g call v l t = some t' ∧ t'.events = t.events ++ new ∧
        (∀ e ∈ new, e.ok) ∧
        ((t'.hasCycle = 1 ∧ ∃ e ∈ new, e.setsFlag) ∨
         (t'.hasCycle = 0 ∧ (∀ e ∈ new, ¬ e.setsFlag) ∧ t'.color v = BLACK ∧
           MonoOff v t.color t'.color)) := by
  intro l
  induction l with
  | nil =>
    intro t _ hflag hgray _
    refine ⟨_, [DfsEvent.paint v (t.color v) BLACK], rfl, rfl, ?_, Or.inr ⟨hflag, ?_, ?_, ?_⟩⟩
    · intro e he
      rw [List.mem_singleton] at he
      subst he
      exact Or.inr ⟨hgray, rfl⟩
    · intro e he
      rw [List.mem_singleton] at he
      subst he
      exact fun h => h
    · exact setAt_same _ _ _
    · intro u hu
      exact Or.inl (setAt_other _ _ _ _ hu)
  | cons i rest ih =>
    intro t hl hflag hgray hfuel
    have hi : i < g.n := hl i (List.mem_cons_self i rest)
    have hrest : ∀ j ∈ rest, j < g.n := fun j hj => hl j (List.mem_cons_of_mem i hj)
    simp only [dfsLoopLog]
    by_cases hadj : g.adjacencyMatrix v i = 1
    · rw [if_pos hadj]
      by_cases hig : t.color i = GRAY
      · rw [if_pos hig]
        refine ⟨_, [DfsEvent.successor v i (t.color i) true], rfl, rfl, ?_,
          Or.inl ⟨rfl, _, List.mem_singleton_self _, rfl⟩⟩
        intro e he
        rw [List.mem_singleton] at he
        subst he
        exact ⟨fun _ => hig, fun _ => rfl⟩
      · rw [if_neg hig]
        have hok : (DfsEvent.successor v i (t.color i) false).ok :=
          ⟨fun h => absurd h (by decide), fun h => absurd h hig⟩
        have hnf : ¬ (DfsEvent.successor v i (t.color i) false).setsFlag := by
          show ¬ (false = true)
          decide
        by_cases hiw : t.color i = WHITE
        · rw [if_pos hiw]
          obtain ⟨t1, ht1, new1, he1, hok1, hpost⟩ := hcall i
            { t with events := t.events ++ [DfsEvent.successor v i (t.color i) false] }
            hi hiw hflag hfuel
          rw [ht1]
          dsimp only
          rcases hpost with ⟨hc1, e, hemem, hef⟩ | ⟨hc0, hnf1, _, hmono⟩
          · have : t1.hasCycle ≠ 0 := by rw [hc1]; decide
            rw [if_pos this]
            refine ⟨t1, DfsEvent.successor v i (t.color i) false :: new1, rfl, ?_, ?_,
              Or.inl ⟨hc1, e, List.mem_cons_of_mem _ hemem, hef⟩⟩
            · rw [he1]; simp
            · intro e' he'
              rcases List.mem_cons.mp he' with h | h
              · subst h; exact hok
              · exact hok1 e' h
          · have : ¬ t1.hasCycle ≠ 0 := by rw [hc0]; decide
            rw [if_neg this]
            have hmono' : Mono t.color t1.color := hmono
            have hgray1 : t1.color v = GRAY := by
              rcases hmono' v with h1 | ⟨h1, _⟩
              · rw [h1]; exact hgray
              · rw [hgray] at h1; exact absurd h1.symm white_ne_gray
            have hfuel1 : (whiteSet g t1.color).card ≤ f :=
              le_trans (Finset.card_le_card (whiteSet_subset_of_mono hmono')) hfuel
            obtain ⟨t2, new2, ht2, he2, hok2, hpost2⟩ := ih t1 hrest hc0 hgray1 hfuel1
            refine ⟨t2, DfsEvent.successor v i (t.color i) false :: (new1 ++ new2), ht2, ?_,
              ?_, ?_⟩
            · rw [he2, he1]; simp
            · intro e' he'
              rcases List.mem_cons.mp he' with h | h
              · subst h; exact hok
              · rcases List.mem_append.mp h with h | h
                · exact hok1 e' h
                · exact hok2 e' h
            · rcases hpost2 with ⟨h21, e, hemem, hef⟩ | ⟨h20, hnf2, h2b, h2m⟩
              · exact Or.inl ⟨h21, e,
                  List.mem_cons_of_mem _ (List.mem_append.mpr (Or.inr hemem)), hef⟩
              · refine Or.inr ⟨h20, ?_, h2b, ?_⟩
                · intro e' he'
                  rcases List.mem_cons.mp he' with h | h
                  · subst h; exact hnf
                  · rcases List.mem_append.mp h with h | h
                    · exact hnf1 e' h
                    · exact hnf2 e' h
                · intro u huv
                  rcases h2m u huv with a | ⟨a1, a2⟩
                  · rcases hmono' u with b | b
                    · exact Or.inl (a.trans b)
                    · exact Or.inr ⟨b.1, a.trans b.2⟩
                  · rcases hmono' u with b | b
                    · exact Or.inr ⟨b ▸ a1, a2⟩
                    · rw [b.2] at a1; exact absurd a1.symm white_ne_black
        · rw [if_neg hiw]
          obtain ⟨t2, new2, ht2, he2, hok2, hpost2⟩ := ih
            { t with events := t.events ++ [DfsEvent.successor v i (t.color i) false] }
            hrest hflag hgray hfuel
          refine ⟨t2, DfsEvent.successor v i (t.color i) false :: new2, ht2, ?_, ?_, ?_⟩
          · rw [he2]; simp
          · intro e' he'
            rcases List.mem_cons.mp he' with h | h
            · subst h; exact hok
            · exact hok2 e' h
          · rcases hpost2 with ⟨h21, e, hemem, hef⟩ | ⟨h20, hnf2, h2b, h2m⟩
            · exact Or.inl ⟨h21, e, List.mem_cons_of_mem _ hemem, hef⟩
            · refine Or.inr ⟨h20, ?_, h2b, h2m⟩
              intro e' he'
              rcases List.mem_cons.mp he' with h | h
              · subst h; exact hnf
              · exact hnf2 e' h
    · rw [if_neg hadj]
      exact ih t hrest hflag hgray hfuel

theorem dfsLog_spec (g : Graph) :
    ∀ (f v : Nat) (t : CycleTrace), v < g.n → t.color v = WHITE → t.hasCycle = 0 →
      (whiteSet g t.color).card ≤ f → ∃ t', dfsLog g f v t = some t' ∧ DfsLogPost v t t' := by
  intro f
  induction f with
  | zero =>
    intro v t hv hw _ hfuel
    have hmem : v ∈ whiteSet g t.color := by simp [whiteSet, hv, hw]
    have := Finset.card_pos.mpr ⟨v, hmem⟩
    omega
  | succ f ih =>
    intro v t hv hw hflag hfuel
    simp only [dfsLog]
    have hcard := whiteSet_card_markGray hv hw
    obtain ⟨t', new, ht', he, hok, hpost⟩ := dfsLoopLog_spec g f (dfsLog g f) v ih
      (List.range g.n)
      { t with
        color := setAt t.color v GRAY
        events := t.events ++
          [DfsEvent.call v (t.color v), DfsEvent.paint v (t.color v) GRAY] }
      (fun i hi => List.mem_range.mp hi) hflag (setAt_same _ _ _) (by simp only; omega)
    refine ⟨t', ht', DfsEvent.call v (t.color v) :: DfsEvent.paint v (t.color v) GRAY :: new,
      ?_, ?_, ?_⟩
    · rw [he]; simp
    · intro e hmem
      rcases List.mem_cons.mp hmem with h | h
      · subst h; exact hw
      · rcases List.mem_cons.mp h with h | h
        · subst h; exact Or.inl ⟨hw, rfl⟩
        · exact hok e h
    · rcases hpost with ⟨h1, e, hemem, hef⟩ | ⟨h0, hnf, hb, hm⟩
      · exact Or.inl ⟨h1, e, List.mem_cons_of_mem _ (List.mem_cons_of_mem _ hemem), hef⟩
      · refine Or.inr ⟨h0, ?_, hb, ?_⟩
        · intro e hmem
          rcases List.mem_cons.mp hmem with h | h
          · subst h; exact fun h => h
          · rcases List.mem_cons.mp h with h | h
            · subst h; exact fun h => h
            · exact hnf e h
        · intro u
          by_cases huv : u = v
          · subst huv; exact Or.inr ⟨hw, hb⟩
          · have := hm u huv
            simp only [setAt_other _ _ _ _ huv] at this
            exact this

theorem detectLoopLog_spec (g : Graph) :
    ∀ (l : List Nat) (t : CycleTrace), (∀ i ∈ l, i < g.n) → t.hasCycle = 0 →
      (∀ e ∈ t.events, e.ok) → (∀ e ∈ t.events, ¬ e.setsFlag) →
      ∃ r t', detectLoopLog g l t = some (r, t') ∧ (∀ e ∈ t'.events, e.ok) ∧
        ((r = 1 ∧ t'.hasCycle = 1 ∧ ∃ e ∈ t'.events, e.setsFlag) ∨
         (r = 0 ∧ t'.hasCycle = 0 ∧ ∀ e ∈ t'.events, ¬ e.setsFlag)) := by
  intro l
  induction l with
  | nil =>
    intro t _ hflag hok hnf
    exact ⟨0, t, rfl, hok, Or.inr ⟨rfl, hflag, hnf⟩⟩
  | cons i rest ih =>
    intro t hl hflag hok hnf
    have hi : i < g.n := hl i (List.mem_cons_self i rest)
    have hrest : ∀ j ∈ rest, j < g.n := fun j hj => hl j (List.mem_cons_of_mem i hj)
    simp only [detectLoopLog]
    by_cases hiw : t.color i = WHITE
    · rw [if_pos hiw]
      have hfuel : (whiteSet g t.color).card ≤ g.n :=
        calc (whiteSet g t.color).card ≤ (Finset.range g.n).card :=
              Finset.card_le_card (Finset.filter_subset _ _)
          _ = g.n := Finset.card_range _
      obtain ⟨t1, ht1, new, he, hok1, hpost⟩ := dfsLog_spec g g.n i t hi hiw hflag hfuel
      rw [ht1]
      dsimp only
      have hokall : ∀ e ∈ t1.events, e.ok := by
        intro e hmem
        rw [he] at hmem
        rcases List.mem_append.mp hmem with h | h
        · exact hok e h
        · exact hok1 e h
      rcases hpost with ⟨hc1, e, hemem, hef⟩ | ⟨hc0, hnf1, _, _⟩
      · have : t1.hasCycle ≠ 0 := by rw [hc1]; decide
        rw [if_pos this]
        exact ⟨1, t1, rfl, hokall,
          Or.inl ⟨rfl, hc1, e, by rw [he]; exact List.mem_append.mpr (Or.inr hemem), hef⟩⟩
      · have : ¬ t1.hasCycle ≠ 0 := by rw [hc0]; decide
        rw [if_neg this]
        apply ih t1 hrest hc0 hokall
        intro e hmem
        rw [he] at hmem
        rcases List.mem_append.mp hmem with h | h
        · exact hnf e h
        · exact hnf1 e h
    · rw [if_neg hiw]
      exact ih t hrest hflag hok hnf

theorem detectCycle_black (g : Graph) (st st' : CycleState)
    (h : detectCycle g st = some (0, st')) : ∀ u, u < g.n → st'.color u = BLACK := by
  have hwhite : ∀ u, u < g.n → resetColors (List.range g.n) st.color u = WHITE := by
    intro u hu
    rw [resetColors_apply, if_pos (List.mem_range.mpr hu)]
  have hinv : Inv g (resetColors (List.range g.n) st.color) := by
    refine ⟨fun u hu => Or.inl (hwhite u hu), ?_, ?_⟩
    · intro u w he hb
      rw [hwhite u he.1] at hb; exact absurd hb white_ne_black
    · intro u hb hc
      obtain ⟨w, huw, _⟩ := Relation.TransGen.head'_iff.mp hc
      rw [hwhite u huw.1] at hb; exact absurd hb white_ne_black
  obtain ⟨r, st1, h1, hpost⟩ := detectLoop_spec g (List.range g.n)
    { color := resetColors (List.range g.n) st.color, hasCycle := 0 }
    (fun i hi => List.mem_range.mp hi) rfl hinv
    (fun u hu hg => white_ne_gray ((hwhite u hu).symm.trans hg))
    (fun u hu hur => absurd (List.mem_range.mpr hu) hur)
  have e : some (r, st1) = some ((0 : Int), st') := h1.symm.trans h
  simp only [Option.some.injEq, Prod.mk.injEq] at e
  obtain ⟨hr, hs⟩ := e
  subst hr hs
  rcases hpost with ⟨h10, _⟩ | ⟨_, _, _, hb⟩
  · exact absurd h10 (by decide)
  · exact hb

theorem main_of_read_failure (file : Option (List Int)) (n0 : Int) (matrix0 : Nat → Nat → Int)
    (color0 : Nat → Int) (hasCycle0 : Int) (order0 : Nat → Int)
    (h : (readGraph file n0 matrix0).ret = 0) :
    main file n0 matrix0 color0 hasCycle0 order0 =
      some { status := 1, readError := (readGraph file n0 matrix0).error, run := none } := by
  simp only [main]
  generalize readGraph file n0 matrix0 = r at h
  obtain ⟨ret, error, n, m⟩ := r
  simp only at h
  subst h
  simp

/-! ## Graphs with a known number of topological orders -/

/-- C1: from any prior content of `color` and `hasCycle`, `detectCycle` returns
a value; that value is 1 exactly when the edge relation has a directed cycle and
0 exactly when it has none, and a self-loop `v -> v` alone makes it return 1. -/
theorem detectCycle_correct (g : Graph) (st : CycleState) :
    ∃ r, detectCycleResult g st = some r ∧ (r = 1 ↔ HasCycle g) ∧ (r = 0 ↔ ¬ HasCycle g) ∧
      ((∃ v, v < g.n ∧ g.adjacencyMatrix v v = 1) → r = 1) := by
  obtain ⟨r, st', hd, hr⟩ := detectCycle_spec g st
  refine ⟨r, by simp [detectCycleResult, hd], ?_⟩
  rcases hr with ⟨h1, hc⟩ | ⟨h0, hc⟩
  · subst h1
    exact ⟨⟨fun _ => hc, fun _ => rfl⟩, ⟨fun h => absurd h (by decide), fun h => absurd hc h⟩,
      fun _ => rfl⟩
  · subst h0
    refine ⟨⟨fun h => absurd h (by decide), fun h => absurd h hc⟩, ⟨fun _ => hc, fun _ => rfl⟩, ?_⟩
    rintro ⟨v, hv, ha⟩
    exact absurd ⟨v, Relation.TransGen.single ⟨hv, hv, ha⟩⟩ hc

/-- C2: on an acyclic graph the enumerator returns, and every ordering it emits
is a valid topological order: a permutation of the vertices `0..n-1` in which
the source of every edge stands at a strictly smaller index than its target. -/
theorem emitted_orders_valid (g : Graph) (order0 : Nat → Int) (_hac : ¬ HasCycle g) :
    ∃ Ls, emitted g order0 = some Ls ∧ ∀ L ∈ Ls, IsTopologicalOrder g L := by
  obtain ⟨Ls, h1, _, h3⟩ := emitted_spec g order0
  exact ⟨Ls, h1, fun L hL => (h3 L).mp hL⟩

theorem emitted_orders_valid_witness :
    ¬ HasCycle (Graph.ofEdges 4 [(0, 1), (0, 2), (1, 3), (2, 3)]) ∧
    ∃ Ls, emitted (Graph.ofEdges 4 [(0, 1), (0, 2), (1, 3), (2, 3)]) (fun _ => 0) = some Ls ∧
      ∀ L ∈ Ls, IsTopologicalOrder (Graph.ofEdges 4 [(0, 1), (0, 2), (1, 3), (2, 3)]) L :=
  ⟨not_hasCycle_of_detect _ ⟨fun _ => 0, 0⟩ (by decide),
   emitted_orders_valid _ _ (not_hasCycle_of_detect _ ⟨fun _ => 0, 0⟩ (by decide))⟩

/-- C3: on an acyclic graph the list of emitted orderings has no duplicates and
its members are exactly the valid topological orders of the graph. -/
theorem emitted_exactly_topological_orders (g : Graph) (order0 : Nat → Int)
    (_hac : ¬ HasCycle g) :
    ∃ Ls, emitted g order0 = some Ls ∧ Ls.Nodup ∧ ∀ L, L ∈ Ls ↔ IsTopologicalOrder g L :=
  emitted_spec g order0

theorem emitted_exactly_topological_orders_witness :
    ¬ HasCycle (Graph.ofEdges 3 [(0, 2), (1, 2)]) ∧
    ∃ Ls, emitted (Graph.ofEdges 3 [(0, 2), (1, 2)]) (fun _ => 0) = some Ls ∧ Ls.Nodup ∧
      ∀ L, L ∈ Ls ↔ IsTopologicalOrder (Graph.ofEdges 3 [(0, 2), (1, 2)]) L :=
  ⟨not_hasCycle_of_detect _ ⟨fun _ => 0, 0⟩ (by decide),
   emitted_exactly_topological_orders _ _
     (not_hasCycle_of_detect _ ⟨fun _ => 0, 0⟩ (by decide))⟩

/-- C4: on a loaded graph with a directed cycle, `main` gets 1 from
`detectCycle`, prints the cycle error, returns status 1 and does not call
`findAllTopologicalSorts`, so no ordering is produced. -/
theorem main_reports_cycle (g : Graph) (color0 : Nat → Int) (hasCycle0 : Int)
    (order0 : Nat → Int) (hc : HasCycle g) :
    detectCycleResult g { color := color0, hasCycle := hasCycle0 } = some 1 ∧
    mainLoaded g color0 hasCycle0 order0 =
      some { status := 1, cycleError := true, sorts := none } := by
  obtain ⟨r, st', hd, hr⟩ := detectCycle_spec g { color := color0, hasCycle := hasCycle0 }
  rcases hr with ⟨h1, _⟩ | ⟨_, hn⟩
  · subst h1
    constructor
    · simp [detectCycleResult, hd]
    · simp [mainLoaded, hd]
  · exact absurd hc hn

theorem main_reports_cycle_witness :
    (HasCycle (Graph.ofEdges 1 [(0, 0)]) ∧
      detectCycleResult (Graph.ofEdges 1 [(0, 0)]) { color := fun _ => 0, hasCycle := 0 } =
        some 1 ∧
      mainLoaded (Graph.ofEdges 1 [(0, 0)]) (fun _ => 0) 0 (fun _ => 0) =
        some { status := 1, cycleError := true, sorts := none }) ∧
    (HasCycle (Graph.ofEdges 2 [(0, 1), (1, 0)]) ∧
      detectCycleResult (Graph.ofEdges 2 [(0, 1), (1, 0)]) { color := fun _ => 0, hasCycle := 0 } =
        some 1 ∧
      mainLoaded (Graph.ofEdges 2 [(0, 1), (1, 0)]) (fun _ => 0) 0 (fun _ => 0) =
        some { status := 1, cycleError := true, sorts := none }) :=
  ⟨⟨⟨0, Relation.TransGen.single (by decide)⟩,
      main_reports_cycle _ _ _ _ ⟨0, Relation.TransGen.single (by decide)⟩⟩,
   ⟨⟨0, Relation.TransGen.tail (Relation.TransGen.single (b := 1) (by decide)) (by decide)⟩,
      main_reports_cycle _ _ _ _
        ⟨0, Relation.TransGen.tail (Relation.TransGen.single (b := 1) (by decide)) (by decide)⟩⟩⟩

/-- C5: with `n = 0` the enumerator emits exactly one ordering, the empty
sequence, numbered 1, and the count is 1; with `n = 1` and no edge it emits
exactly one ordering, `[0]`. -/
theorem enumerator_boundaries :
    (∀ (g : Graph) (order0 : Nat → Int), g.n = 0 →
      findAllTopologicalSorts g order0 =
        some { solutionCount := 1, printed := [(1, [])], summary := Summary.total 1 }) ∧
    (∀ (g : Graph) (order0 : Nat → Int), g.n = 1 → g.adjacencyMatrix 0 0 ≠ 1 →
      findAllTopologicalSorts g order0 =
        some { solutionCount := 1, printed := [(1, [0])], summary := Summary.total 1 }) := by
  constructor
  · intro g order0 hn
    have hw : wrapInt 1 = 1 := by decide
    rw [findAllTopologicalSorts_eq, hn]
    simp [extensions, number, asInts, hw]
  · intro g order0 hn hadj
    have hr : List.range 1 = [0] := rfl
    have e : extensions g g.n [] = [[0]] := by
      rw [hn]
      simp only [extensions, hn, hr]
      simp [extendWith, hn, hr, hadj]
    have hw : wrapInt 1 = 1 := by decide
    rw [findAllTopologicalSorts_eq, e]
    simp [number, asInts, hw]

theorem enumerator_boundaries_witness :
    (Graph.ofEdges 0 []).n = 0 ∧
    findAllTopologicalSorts (Graph.ofEdges 0 []) (fun _ => 0) =
      some { solutionCount := 1, printed := [(1, [])], summary := Summary.total 1 } ∧
    (Graph.ofEdges 1 []).n = 1 ∧ (Graph.ofEdges 1 []).adjacencyMatrix 0 0 ≠ 1 ∧
    findAllTopologicalSorts (Graph.ofEdges 1 []) (fun _ => 0) =
      some { solutionCount := 1, printed := [(1, [0])], summary := Summary.total 1 } :=
  ⟨rfl, enumerator_boundaries.1 _ _ rfl, rfl, by decide,
   enumerator_boundaries.2 _ _ rfl (by decide)⟩

/-- C6: on an acyclic graph in which any two distinct vertices are joined by a
directed path one way or the other, the enumerator emits exactly one ordering,
and it is a topological order; for `n = 3` with edges `0 -> 1`, `1 -> 2` the
single ordering is `[0, 1, 2]`. -/
theorem total_order_single_ordering :
    (∀ (g : Graph) (order0 : Nat → Int), ¬ HasCycle g →
      (∀ u v, u < g.n → v < g.n → u ≠ v →
        Relation.TransGen (Edge g) u v ∨ Relation.TransGen (Edge g) v u) →
      ∃ L, emitted g order0 = some [L] ∧ IsTopologicalOrder g L) ∧
    (∀ order0 : Nat → Int, emitted (Graph.ofEdges 3 [(0, 1), (1, 2)]) order0 = some [[0, 1, 2]]) := by
  constructor
  · intro g order0 hac htot
    have hne := extensions_ne_nil g hac g.n [] (by simp) List.nodup_nil
      (fun v hv => absurd hv (List.not_mem_nil v))
    obtain ⟨l, hl⟩ := eq_singleton_of_nodup hne (nodup_extensions g g.n []) (by
      intro a ha b hb
      exact isTopoList_unique g hac htot ((mem_extensions_root g a).mp ha)
        ((mem_extensions_root g b).mp hb))
    refine ⟨asInts l, by rw [emitted_eq, hl]; rfl, ?_⟩
    rw [isTopologicalOrder_asInts, ← mem_extensions_root, hl]
    exact List.mem_singleton_self l
  · intro order0
    rw [emitted_eq]
    decide

theorem total_order_single_ordering_witness :
    ¬ HasCycle (Graph.ofEdges 3 [(0, 1), (1, 2)]) ∧
    (∀ u v, u < (Graph.ofEdges 3 [(0, 1), (1, 2)]).n → v < (Graph.ofEdges 3 [(0, 1), (1, 2)]).n →
      u ≠ v →
      Relation.TransGen (Edge (Graph.ofEdges 3 [(0, 1), (1, 2)])) u v ∨
        Relation.TransGen (Edge (Graph.ofEdges 3 [(0, 1), (1, 2)])) v u) ∧
    ∃ L, emitted (Graph.ofEdges 3 [(0, 1), (1, 2)]) (fun _ => 0) = some [L] ∧
      IsTopologicalOrder (Graph.ofEdges 3 [(0, 1), (1, 2)]) L :=
  have h01 : Relation.TransGen (Edge (Graph.ofEdges 3 [(0, 1), (1, 2)])) 0 1 :=
    Relation.TransGen.single (by decide)
  have h12 : Relation.TransGen (Edge (Graph.ofEdges 3 [(0, 1), (1, 2)])) 1 2 :=
    Relation.TransGen.single (by decide)
  have htot : ∀ u v, u < (Graph.ofEdges 3 [(0, 1), (1, 2)]).n →
      v < (Graph.ofEdges 3 [(0, 1), (1, 2)]).n → u ≠ v →
      Relation.TransGen (Edge (Graph.ofEdges 3 [(0, 1), (1, 2)])) u v ∨
        Relation.TransGen (Edge (Graph.ofEdges 3 [(0, 1), (1, 2)])) v u := by
    intro u v hu hv huv
    have hu3 : u < 3 := hu
    have hv3 : v < 3 := hv
    interval_cases u <;> interval_cases v <;>
      first
        | exact absurd rfl huv
        | exact Or.inl h01
        | exact Or.inl h12
        | exact Or.inl (h01.trans h12)
        | exact Or.inr h01
        | exact Or.inr h12
        | exact Or.inr (h01.trans h12)
  ⟨not_hasCycle_of_detect _ ⟨fun _ => 0, 0⟩ (by decide), htot,
   total_order_single_ordering.1 _ _ (not_hasCycle_of_detect _ ⟨fun _ => 0, 0⟩ (by decide)) htot⟩

/-- C7: on a graph with no edges the enumerator emits every permutation of
`0..n-1` exactly once and nothing else, `n!` orderings in all. -/
theorem no_edges_all_permutations (g : Graph) (order0 : Nat → Int)
    (hno : ∀ u v, ¬ Edge g u v) :
    ∃ Ls, emitted g order0 = some Ls ∧ Ls.Nodup ∧
      (∀ L, L ∈ Ls ↔ L.Perm ((List.range g.n).map (fun v : Nat => (v : Int)))) ∧
      Ls.length = g.n.factorial := by
  obtain ⟨Ls, h1, h2, h3⟩ := emitted_spec g order0
  have hmem : ∀ L, L ∈ Ls ↔ L.Perm ((List.range g.n).map (fun v : Nat => (v : Int))) := by
    intro L
    rw [h3]
    exact ⟨fun h => h.1, fun h => ⟨h, fun u v he => absurd he (hno u v)⟩⟩
  refine ⟨Ls, h1, h2, hmem, ?_⟩
  have hbase : ((List.range g.n).map (fun v : Nat => (v : Int))).Nodup :=
    (List.nodup_range g.n).map Nat.cast_injective
  have hperm : Ls.Perm ((List.range g.n).map (fun v : Nat => (v : Int))).permutations := by
    rw [List.perm_ext_iff_of_nodup h2 (List.nodup_permutations _ hbase)]
    intro L
    rw [hmem, List.mem_permutations]
  rw [hperm.length_eq, List.length_permutations, List.length_map, List.length_range]

theorem no_edges_all_permutations_witness :
    (∀ u v, ¬ Edge (Graph.ofEdges 3 []) u v) ∧
    (∃ Ls, emitted (Graph.ofEdges 3 []) (fun _ => 0) = some Ls ∧ Ls.Nodup ∧
      (∀ L, L ∈ Ls ↔ L.Perm ((List.range (Graph.ofEdges 3 []).n).map (fun v : Nat => (v : Int)))) ∧
      Ls.length = (Graph.ofEdges 3 []).n.factorial) ∧
    emitted (Graph.ofEdges 3 []) (fun _ => 0) =
      some [[0, 1, 2], [0, 2, 1], [1, 0, 2], [1, 2, 0], [2, 0, 1], [2, 1, 0]] :=
  ⟨fun _ _ h => absurd h.2.2 (by simp [Graph.ofEdges]),
   no_edges_all_permutations _ _ (fun _ _ h => absurd h.2.2 (by simp [Graph.ofEdges])),
   by decide⟩

/-- C8: for `n = 3` with edges `0 -> 1`, `0 -> 2` the enumerator prints exactly
`1: [0, 1, 2]` and `2: [0, 2, 1]`, and the reported total is 2. -/
theorem scenario_C_two_orderings (order0 : Nat → Int) :
    findAllTopologicalSorts (Graph.ofEdges 3 [(0, 1), (0, 2)]) order0 =
      some { solutionCount := 2
             printed := [(1, [0, 1, 2]), (2, [0, 2, 1])]
             summary := Summary.total 2 } := by
  rw [findAllTopologicalSorts_eq]
  decide

/-- C9: from any prior content of `color` and `hasCycle`, `detectCycle` returns
a value `r`; a second call in the state the first one left returns `r` again,
and so does a call from any other content. -/
theorem detectCycle_idempotent (g : Graph) (st : CycleState) :
    ∃ r st1, detectCycle g st = some (r, st1) ∧ detectCycleResult g st1 = some r ∧
      ∀ st', detectCycleResult g st' = some r := by
  obtain ⟨r, st1, hd, hr⟩ := detectCycle_spec g st
  have hall : ∀ st', detectCycleResult g st' = some r := by
    intro st'
    obtain ⟨r', st2, hd', hr'⟩ := detectCycle_spec g st'
    have : r' = r := by
      rcases hr with ⟨h1, hc⟩ | ⟨h0, hc⟩ <;> rcases hr' with ⟨h1', hc'⟩ | ⟨h0', hc'⟩
      · rw [h1, h1']
      · exact absurd hc hc'
      · exact absurd hc' hc
      · rw [h0, h0']
    simp [detectCycleResult, hd', this]
  exact ⟨r, st1, hd, hall st1, hall⟩

/-- C12, as the code behaves: `readGraph` does not look at the sign of the
vertex count. When the file opens and its first integer `n` is negative,
`readGraph` reads nothing more, prints no error and returns 1, with the global
`n` set to that negative value. -/
theorem readGraph_accepts_negative_count (n : Int) (rest : List Int) (n0 : Int)
    (matrix0 : Nat → Nat → Int) (hn : n < 0) :
    (readGraph (some (n :: rest)) n0 matrix0).ret = 1 ∧
    (readGraph (some (n :: rest)) n0 matrix0).error = none ∧
    (readGraph (some (n :: rest)) n0 matrix0).n = n ∧
    (readGraph (some (n :: rest)) n0 matrix0).adjacencyMatrix = matrix0 := by
  have h0 : n.toNat = 0 := Int.toNat_eq_zero.mpr (le_of_lt hn)
  simp [readGraph, h0, readRows]

theorem readGraph_accepts_negative_count_witness :
    (-1 : Int) < 0 ∧
    (readGraph (some [-1, 0, 1]) 0 (fun _ _ => 0)).ret = 1 ∧
    (readGraph (some [-1, 0, 1]) 0 (fun _ _ => 0)).error = none ∧
    (readGraph (some [-1, 0, 1]) 0 (fun _ _ => 0)).n = -1 ∧
    (readGraph (some [-1, 0, 1]) 0 (fun _ _ => 0)).adjacencyMatrix = (fun _ _ => 0) :=
  ⟨by decide, readGraph_accepts_negative_count (-1) [0, 1] 0 (fun _ _ => 0) (by decide)⟩

/-- C12, as stated, fails: on the input whose only integer is `-1`, `readGraph`
returns 1 and prints no error. -/
theorem readGraph_rejects_negative_counterexample :
    (readGraph (some [-1]) 0 (fun _ _ => 0)).ret ≠ 0 ∧
    (readGraph (some [-1]) 0 (fun _ _ => 0)).ret = 1 ∧
    (readGraph (some [-1]) 0 (fun _ _ => 0)).error = none := by
  decide

/-- C13: `readGraph` returns 0 with an error line when the count cannot be
read, and when a count `n >= 0` is followed by fewer than `n * n` integers;
whenever `readGraph` returns 0, `main` returns 1 and runs neither the cycle
detection nor the enumeration; when a count `n >= 0` is followed by at least
`n * n` integers, `readGraph` returns 1 without an error line, and
`adjacencyMatrix[i][j]` is the integer at index `i * n + j` after the count. -/
theorem readGraph_input_contract :
    (∀ (n0 : Int) (matrix0 : Nat → Nat → Int),
      (readGraph (some []) n0 matrix0).ret = 0 ∧
      (readGraph (some []) n0 matrix0).error = some ReadError.cannotReadCount) ∧
    (∀ (n : Int) (rest : List Int) (n0 : Int) (matrix0 : Nat → Nat → Int), 0 ≤ n →
      rest.length < n.toNat * n.toNat →
      (readGraph (some (n :: rest)) n0 matrix0).ret = 0 ∧
      (readGraph (some (n :: rest)) n0 matrix0).error = some ReadError.cannotReadMatrix) ∧
    (∀ (file : Option (List Int)) (n0 : Int) (matrix0 : Nat → Nat → Int) (color0 : Nat → Int)
      (hasCycle0 : Int) (order0 : Nat → Int), (readGraph file n0 matrix0).ret = 0 →
      main file n0 matrix0 color0 hasCycle0 order0 =
        some { status := 1, readError := (readGraph file n0 matrix0).error, run := none }) ∧
    (∀ (n : Int) (rest : List Int) (n0 : Int) (matrix0 : Nat → Nat → Int), 0 ≤ n →
      n.toNat * n.toNat ≤ rest.length →
      (readGraph (some (n :: rest)) n0 matrix0).ret = 1 ∧
      (readGraph (some (n :: rest)) n0 matrix0).error = none ∧
      (readGraph (some (n :: rest)) n0 matrix0).n = n ∧
      ∀ i j, i < n.toNat → j < n.toNat →
        rest[i * n.toNat + j]? =
          some ((readGraph (some (n :: rest)) n0 matrix0).adjacencyMatrix i j)) := by
  refine ⟨fun _ _ => ⟨rfl, rfl⟩, ?_, main_of_read_failure, ?_⟩
  · intro n rest n0 matrix0 _ hlen
    have hf := readRows_fail n.toNat n.toNat 0 rest matrix0 hlen
    rw [← List.range_eq_range'] at hf
    simp only [readGraph]
    cases hr : readRows n.toNat (List.range n.toNat) rest matrix0 with
    | mk ok restm =>
      obtain ⟨input1, m1⟩ := restm
      rw [hr] at hf
      simp only at hf
      subst hf
      exact ⟨rfl, rfl⟩
  · intro n rest n0 matrix0 _ hlen
    obtain ⟨m', h1, h2⟩ := readRows_ok n.toNat n.toNat 0 rest matrix0 hlen
    rw [← List.range_eq_range'] at h1
    have hrep : readGraph (some (n :: rest)) n0 matrix0 =
        { ret := 1, error := none, n := n, adjacencyMatrix := m' } := by
      simp only [readGraph, h1]
    rw [hrep]
    refine ⟨rfl, rfl, rfl, ?_⟩
    intro i j hi hj
    show rest[i * n.toNat + j]? = some (m' i j)
    have hc : 0 ≤ i ∧ i < 0 + n.toNat ∧ j < n.toNat := ⟨Nat.zero_le _, by omega, hj⟩
    rw [h2, if_pos hc, Nat.sub_zero]
    have hk : i * n.toNat + j < rest.length := by
      have : i * n.toNat + j < (i + 1) * n.toNat := by
        rw [Nat.add_mul, Nat.one_mul]; omega
      have : (i + 1) * n.toNat ≤ n.toNat * n.toNat := Nat.mul_le_mul_right _ hi
      omega
    rw [List.getD_eq_getElem _ _ hk, List.getElem?_eq_getElem hk]

theorem readGraph_input_contract_witness :
    ((0 : Int) ≤ 2 ∧ [0, 1, 0].length < (2 : Int).toNat * (2 : Int).toNat ∧
      (readGraph (some [2, 0, 1, 0]) 0 (fun _ _ => 0)).ret = 0 ∧
      (readGraph (some [2, 0, 1, 0]) 0 (fun _ _ => 0)).error =
        some ReadError.cannotReadMatrix) ∧
    ((readGraph (some [2, 0, 1, 0]) 0 (fun _ _ => 0)).ret = 0 ∧
      main (some [2, 0, 1, 0]) 0 (fun _ _ => 0) (fun _ => 0) 0 (fun _ => 0) =
        some { status := 1
               readError := (readGraph (some [2, 0, 1, 0]) 0 (fun _ _ => 0)).error
               run := none }) ∧
    ((0 : Int) ≤ 2 ∧ (2 : Int).toNat * (2 : Int).toNat ≤ [0, 1, 0, 0, 7].length ∧
      (readGraph (some [2, 0, 1, 0, 0, 7]) 0 (fun _ _ => 0)).ret = 1 ∧
      (readGraph (some [2, 0, 1, 0, 0, 7]) 0 (fun _ _ => 0)).error = none ∧
      (readGraph (some [2, 0, 1, 0, 0, 7]) 0 (fun _ _ => 0)).n = 2 ∧
      ∀ i j, i < (2 : Int).toNat → j < (2 : Int).toNat →
        [0, 1, 0, 0, 7][i * (2 : Int).toNat + j]? =
          some ((readGraph (some [2, 0, 1, 0, 0, 7]) 0 (fun _ _ => 0)).adjacencyMatrix i j)) :=
  ⟨⟨by decide, by decide,
      readGraph_input_contract.2.1 2 [0, 1, 0] 0 (fun _ _ => 0) (by decide) (by decide)⟩,
   ⟨by decide,
      readGraph_input_contract.2.2.1 (some [2, 0, 1, 0]) 0 (fun _ _ => 0) (fun _ => 0) 0
        (fun _ => 0) (by decide)⟩,
   ⟨by decide, by decide,
      readGraph_input_contract.2.2.2 2 [0, 1, 0, 0, 7] 0 (fun _ _ => 0) (by decide) (by decide)⟩⟩

/-- C14: on an acyclic graph the call `findAllTopologicalOrders(0, visited)`
returns from any state, with fuel `n + 1`, that is with at most `n` calls nested
below the first one; every call has a position `<= n`, every call below the
first has position `p + 1` for some `p < n`, a call that makes a recursive call
has position `< n`, and no call makes more than `n` recursive calls. -/
theorem search_terminates_bounded (g : Graph) (st : EnumState) (_hac : ¬ HasCycle g) :
    ∃ st' first below,
      findAllTopologicalOrders g (g.n + 1) 0 st = some st' ∧
      findAllTopologicalOrdersLog g (g.n + 1) 0 st = some (st', first :: below) ∧
      first.position = 0 ∧ first.calls ≤ g.n ∧ (0 < first.calls → 0 < g.n) ∧
      ∀ r ∈ below, (∃ p, p < g.n ∧ r.position = p + 1) ∧ r.position ≤ g.n ∧
        r.calls ≤ g.n ∧ (0 < r.calls → r.position < g.n) := by
  obtain ⟨st', h1, _, _⟩ := findAllTopologicalOrders_frame g g.n (g.n + 1) 0 st (by simp)
    (Nat.lt_succ_self _)
  obtain ⟨log, h2⟩ := findAllTopologicalOrdersLog_of_some g h1
  obtain ⟨first, below, rfl, hp, _, hc, hc', hb⟩ :=
    findAllTopologicalOrdersLog_bounds g (g.n + 1) 0 st st' log (Nat.zero_le _) h2
  refine ⟨st', first, below, h1, h2, hp, hc, hc', ?_⟩
  intro r hr
  obtain ⟨a, b, c, d⟩ := hb r hr
  exact ⟨⟨r.position - 1, by omega, by omega⟩, b, c, d⟩

theorem search_terminates_bounded_witness :
    ¬ HasCycle (Graph.ofEdges 3 [(0, 1), (0, 2)]) ∧
    ∃ st' first below,
      findAllTopologicalOrders (Graph.ofEdges 3 [(0, 1), (0, 2)])
        ((Graph.ofEdges 3 [(0, 1), (0, 2)]).n + 1) 0
        { visited := fun _ => 0, currentOrder := fun _ => 0, solutionCount := 0, printed := [] } =
          some st' ∧
      findAllTopologicalOrdersLog (Graph.ofEdges 3 [(0, 1), (0, 2)])
        ((Graph.ofEdges 3 [(0, 1), (0, 2)]).n + 1) 0
        { visited := fun _ => 0, currentOrder := fun _ => 0, solutionCount := 0, printed := [] } =
          some (st', first :: below) ∧
      first.position = 0 ∧ first.calls ≤ (Graph.ofEdges 3 [(0, 1), (0, 2)]).n ∧
      (0 < first.calls → 0 < (Graph.ofEdges 3 [(0, 1), (0, 2)]).n) ∧
      ∀ r ∈ below, (∃ p, p < (Graph.ofEdges 3 [(0, 1), (0, 2)]).n ∧ r.position = p + 1) ∧
        r.position ≤ (Graph.ofEdges 3 [(0, 1), (0, 2)]).n ∧
        r.calls ≤ (Graph.ofEdges 3 [(0, 1), (0, 2)]).n ∧
        (0 < r.calls → r.position < (Graph.ofEdges 3 [(0, 1), (0, 2)]).n) :=
  ⟨not_hasCycle_of_detect _ ⟨fun _ => 0, 0⟩ (by decide),
   search_terminates_bounded _ _ (not_hasCycle_of_detect _ ⟨fun _ => 0, 0⟩ (by decide))⟩

/-- C15, as the code behaves: on a graph that contains a cycle the call
`findAllTopologicalOrders(0, visited)` returns, from any state, as on every
graph: `position` grows with each recursive call and is bounded by `n`. -/
theorem cyclic_search_terminates (g : Graph) (st : EnumState) (_hc : HasCycle g) :
    ∃ st', findAllTopologicalOrders g (g.n + 1) 0 st = some st' := by
  obtain ⟨st', h1, _, _⟩ := findAllTopologicalOrders_frame g g.n (g.n + 1) 0 st (by simp)
    (Nat.lt_succ_self _)
  exact ⟨st', h1⟩

theorem cyclic_search_terminates_witness :
    HasCycle (Graph.ofEdges 3 [(0, 1), (1, 2), (2, 0)]) ∧
    ∃ st', findAllTopologicalOrders (Graph.ofEdges 3 [(0, 1), (1, 2), (2, 0)])
      ((Graph.ofEdges 3 [(0, 1), (1, 2), (2, 0)]).n + 1) 0
      { visited := fun _ => 0, currentOrder := fun _ => 0, solutionCount := 0, printed := [] } =
        some st' :=
  ⟨hasCycle_of_detect _ ⟨fun _ => 0, 0⟩ (by decide),
   cyclic_search_terminates _ _ (hasCycle_of_detect _ ⟨fun _ => 0, 0⟩ (by decide))⟩

/-- C15, as stated, fails: on the graph with the 2-cycle `0 -> 1 -> 0` the
search started by `findAllTopologicalSorts` returns (already with fuel 3), and
the run ends with no ordering and the count 0. -/
theorem cyclic_search_diverges_counterexample :
    HasCycle (Graph.ofEdges 2 [(0, 1), (1, 0)]) ∧
    ¬ (∀ fuel, findAllTopologicalOrders (Graph.ofEdges 2 [(0, 1), (1, 0)]) fuel 0
        { visited := fun _ => 0, currentOrder := fun _ => 0, solutionCount := 0, printed := [] } =
          none) ∧
    findAllTopologicalSorts (Graph.ofEdges 2 [(0, 1), (1, 0)]) (fun _ => 0) =
      some { solutionCount := 0, printed := [], summary := Summary.noOrdering } := by
  refine ⟨hasCycle_of_detect _ ⟨fun _ => 0, 0⟩ (by decide), ?_, by decide⟩
  intro h
  have h3 := h 3
  have : (findAllTopologicalOrders (Graph.ofEdges 2 [(0, 1), (1, 0)]) 3 0
      { visited := fun _ => 0, currentOrder := fun _ => 0, solutionCount := 0,
        printed := [] }).isSome = true := by decide
  rw [h3] at this
  exact absurd this (by decide)

/-- C16: in the search started at position 0 with `visited` all zero, at the
entry of every call `visited[v] == 1` holds exactly for the vertices `v` in
`currentOrder[0..position)`, these entries are pairwise distinct, and every
predecessor of the vertex at an index `i < position` stands at a smaller
index. -/
theorem search_entry_invariant (g : Graph) (order0 : Nat → Int) (count0 : Int)
    (printed0 : List (Int × List Int)) :
    ∃ st' log,
      findAllTopologicalOrdersLog g (g.n + 1) 0
        { visited := fun _ => 0, currentOrder := order0, solutionCount := count0,
          printed := printed0 } = some (st', log) ∧
      ∀ r ∈ log,
        (∀ v, v < g.n →
          (r.entry.visited v = 1 ↔ ∃ i, i < r.position ∧ r.entry.currentOrder i = (v : Int))) ∧
        (∀ i j, i < j → j < r.position → r.entry.currentOrder i ≠ r.entry.currentOrder j) ∧
        (∀ i, i < r.position → ∀ p w, Edge g p w → r.entry.currentOrder i = (w : Int) →
          ∃ k, k < i ∧ r.entry.currentOrder k = (p : Int)) := by
  obtain ⟨st', h1, _, _⟩ := findAllTopologicalOrders_frame g g.n (g.n + 1) 0
    { visited := fun _ => 0, currentOrder := order0, solutionCount := count0,
      printed := printed0 } (by simp) (Nat.lt_succ_self _)
  obtain ⟨log, h2⟩ := findAllTopologicalOrdersLog_of_some g h1
  refine ⟨st', log, h2, ?_⟩
  intro r hr
  have hinv : EntryInv g []
      { visited := fun _ => 0, currentOrder := order0, solutionCount := count0,
        printed := printed0 } :=
    ⟨⟨List.nodup_nil, fun v hv => absurd hv (List.not_mem_nil v), fun u _ => by simp, rfl⟩,
      trivial, fun _ _ => Or.inl rfl⟩
  obtain ⟨pre, hlen, hpre⟩ := findAllTopologicalOrdersLog_entries g g.n (g.n + 1) [] _ st' log
    (by simp) (Nat.lt_succ_self _) hinv h2 r hr
  rw [← hlen]
  exact hpre.explicit

/-- C17: for every graph, every `position <= n` and every content of
`visited` and `currentOrder`, the call `findAllTopologicalOrders(position,
visited)` returns (fuel above `n - position` is enough), `visited` is then
equal to its value at entry, and `currentOrder` is unchanged below
`position`. -/
theorem backtracking_restores_state (g : Graph) (position fuel : Nat) (st : EnumState)
    (hp : position ≤ g.n) (hf : g.n - position < fuel) :
    ∃ st', findAllTopologicalOrders g fuel position st = some st' ∧
      st'.visited = st.visited ∧
      ∀ j, j < position → st'.currentOrder j = st.currentOrder j :=
  findAllTopologicalOrders_frame g (g.n - position) fuel position st (by omega) hf

theorem backtracking_restores_state_witness :
    1 ≤ (Graph.ofEdges 3 [(0, 1)]).n ∧ (Graph.ofEdges 3 [(0, 1)]).n - 1 < 3 ∧
    ∃ st', findAllTopologicalOrders (Graph.ofEdges 3 [(0, 1)]) 3 1
        { visited := fun u => if u = 2 then 7 else 0, currentOrder := fun _ => 5,
          solutionCount := 4, printed := [] } = some st' ∧
      st'.visited = (fun u => if u = 2 then 7 else 0) ∧
      ∀ j, j < 1 → st'.currentOrder j = 5 :=
  ⟨by decide, by decide, backtracking_restores_state _ 1 3 _ (by decide) (by decide)⟩

/-- C18: in one pass of `detectCycle`, after the reset, every call of `dfs` is
on a WHITE vertex; every store to `color` moves a colour WHITE → GRAY or
GRAY → BLACK; `hasCycle = 1` is executed for a tested successor exactly when
that successor is GRAY, and the flag ends as 1 exactly when this happened; and
when `detectCycle` returns 0 every vertex is BLACK. -/
theorem colour_discipline (g : Graph) (st : CycleState) :
    ∃ r t, detectCycleLog g st = some (r, t) ∧ detectCycle g st = some (r, t.state) ∧
      (∀ v c, DfsEvent.call v c ∈ t.events → c = WHITE) ∧
      (∀ v old new, DfsEvent.paint v old new ∈ t.events →
        (old = WHITE ∧ new = GRAY) ∨ (old = GRAY ∧ new = BLACK)) ∧
      (∀ v i c b, DfsEvent.successor v i c b ∈ t.events → (b = true ↔ c = GRAY)) ∧
      (t.hasCycle = 1 ↔ ∃ v i c, DfsEvent.successor v i c true ∈ t.events) ∧
      (r = 1 ↔ t.hasCycle = 1) ∧
      (r = 0 → ∀ u, u < g.n → t.color u = BLACK) := by
  obtain ⟨r, t, h, hok, hpost⟩ := detectLoopLog_spec g (List.range g.n)
    { color := resetColors (List.range g.n) st.color, hasCycle := 0, events := [] }
    (fun i hi => List.mem_range.mp hi) rfl
    (fun e he => absurd he (List.not_mem_nil e)) (fun e he => absurd he (List.not_mem_nil e))
  have hrun : detectCycleLog g st = some (r, t) := h
  have hplain : detectCycle g st = some (r, t.state) := by
    rw [← detectCycleLog_state, hrun]
    rfl
  refine ⟨r, t, hrun, hplain, fun v c hm => hok _ hm, fun v old new hm => hok _ hm,
    fun v i c b hm => hok _ hm, ?_, ?_, ?_⟩
  · rcases hpost with ⟨_, h1, e, hemem, hef⟩ | ⟨_, h0, hnf⟩
    · refine ⟨fun _ => ?_, fun _ => h1⟩
      cases e with
      | call v c => exact absurd hef (fun h => h)
      | paint v old new => exact absurd hef (fun h => h)
      | successor v i c b =>
        have hb : b = true := hef
        subst hb
        exact ⟨v, i, c, hemem⟩
    · constructor
      · intro h1
        rw [h0] at h1
        exact absurd h1 (by decide)
      · rintro ⟨v, i, c, hm⟩
        exact absurd rfl (hnf _ hm)
  · rcases hpost with ⟨hr, h1, _⟩ | ⟨hr, h0, _⟩
    · exact ⟨fun _ => h1, fun _ => hr⟩
    · constructor
      · intro h1; rw [hr] at h1; exact absurd h1 (by decide)
      · intro h1; rw [h0] at h1; exact absurd h1 (by decide)
  · intro hr
    subst hr
    exact detectCycle_black g st t.state hplain

/-- C19: for every graph the orderings are emitted in strictly increasing
lexicographic order: of two emitted orderings the earlier one holds the smaller
vertex at the first index where they differ; so the first emitted ordering
comes before every other topological order of the graph. -/
theorem emitted_lexicographic (g : Graph) (order0 : Nat → Int) :
    ∃ Ls, emitted g order0 = some Ls ∧ Ls.Pairwise LexBefore ∧
      ∀ A rest, Ls = A :: rest → ∀ L, IsTopologicalOrder g L → L = A ∨ LexBefore A L := by
  have hpw : ((extensions g g.n []).map asInts).Pairwise LexBefore :=
    List.pairwise_map.mpr (pairwise_lex_extensions g g.n [])
  refine ⟨_, emitted_eq g order0, hpw, ?_⟩
  intro A rest hA L hL
  obtain ⟨Ls, h1, _, h3⟩ := emitted_spec g order0
  rw [emitted_eq, Option.some.injEq] at h1
  have hmem : L ∈ A :: rest := by rw [← hA, h1]; exact (h3 L).mpr hL
  rw [hA] at hpw
  rcases List.mem_cons.mp hmem with h | h
  · exact Or.inl h
  · exact Or.inr (List.rel_of_pairwise_cons hpw h)

end TopologicalSort
